import Mathlib

/-!
Playlist generator (script.go): library scanner, match loop, playlist writer.

A shallow embedding of `script.go`.  Go strings are byte sequences; they are
modelled as lists of characters, compared character by character (which is the
byte-wise order of their UTF-8 encodings).  The file system is a finite tree,
the remote search service and the bleve index are oracles passed as arguments,
and the unspecified iteration order of Go maps is an explicit argument too.
-/

namespace Playlist

/-- Go `string`. -/
abbrev GoString := List Char

/-- The `Song` struct of script.go. -/
structure Song where
  RelativePath : GoString
  Title : GoString
deriving DecidableEq, Repr

/-- The `Artist` struct of script.go. -/
structure Artist where
  Name : GoString
  Songs : List Song
deriving DecidableEq, Repr

/-- One directory entry as `os.ReadDir` reports it, together with what lies
beneath it.  `file` is any entry whose `IsDir()` is false; `dir` is a directory
whose listing succeeds with the given entries (in listing order); `errDir` is a
directory holding the given entries whose `os.ReadDir` returns an error. -/
inductive Entry where
  | file (name : GoString)
  | dir (name : GoString) (entries : List Entry)
  | errDir (name : GoString) (entries : List Entry)
deriving Repr

/-- The value of `entry.Name()`. -/
def Entry.name : Entry → GoString
  | .file n => n
  | .dir n _ => n
  | .errDir n _ => n

/-- The value of `entry.IsDir()`. -/
def Entry.isDir : Entry → Bool
  | .file _ => false
  | .dir _ _ => true
  | .errDir _ _ => true

/-- The value of `fmt.Sprintf("%s/%s", path, name)`. -/
def pathJoin (path name : GoString) : GoString := path ++ '/' :: name

/-- The value of `fmt.Sprintln(s)` for one string operand. -/
def Sprintln (s : GoString) : GoString := s ++ ['\n']

/-- The value of `strings.HasPrefix(s, p)`. -/
def HasPrefix (s p : GoString) : Bool := p.isPrefixOf s

/-- The value of `strings.TrimPrefix(s, p)`. -/
def TrimPrefix (s p : GoString) : GoString :=
  if HasPrefix s p then s.drop p.length else s

/-! ## Library scanner -/

mutual
/-- One turn of the loop of `getSongs` (lines 173-182): a directory entry
recurses into `getSongs` of the joined path (whose `os.ReadDir` either lists the
entries or fails, giving no songs); any other entry becomes one `Song`. -/
def getSongsEntry (path : GoString) : Entry → List Song
  | .file name => [⟨pathJoin path name, name⟩]
  | .dir name entries => getSongsLoop (pathJoin path name) entries
  | .errDir _ _ => []
/-- The loop of `getSongs` over the entries of one listing, appending in order. -/
def getSongsLoop (path : GoString) : List Entry → List Song
  | [] => []
  | e :: rest => getSongsEntry path e ++ getSongsLoop path rest
end

/-- The function `getSongs(path)`; `listing` is the result of `os.ReadDir(path)`,
`none` when it returns an error. -/
def getSongs (path : GoString) (listing : Option (List Entry)) : List Song :=
  match listing with
  | none => []
  | some entries => getSongsLoop path entries

/-- What `os.ReadDir` of a directory entry gives. -/
def Entry.listing : Entry → Option (List Entry)
  | .dir _ entries => some entries
  | _ => none

/-- The loop of `getArtists` (lines 151-159). -/
def getArtistsLoop (path : GoString) : List Entry → List Artist
  | [] => []
  | e :: rest =>
    if e.isDir && !HasPrefix e.name ['.'] then
      ⟨e.name, getSongs (pathJoin path e.name) e.listing⟩ :: getArtistsLoop path rest
    else getArtistsLoop path rest

/-- The function `getArtists(path)`; `listing` is the result of `os.ReadDir(path)`. -/
def getArtists (path : GoString) (listing : Option (List Entry)) : List Artist :=
  match listing with
  | none => []
  | some entries => getArtistsLoop path entries

/-! ## The library tree as the specification reads it -/

/-- What a directory entry holds (nothing for a file). -/
def Entry.children : Entry → List Entry
  | .file _ => []
  | .dir _ entries => entries
  | .errDir _ entries => entries

/-- A non-directory file named `name` lies beneath the listing `es`, reached
through the chain of directories `dirs` (outermost first). -/
inductive FileAt : List Entry → List GoString → GoString → Prop where
  | direct {es : List Entry} {name : GoString} : Entry.file name ∈ es → FileAt es [] name
  | through {es : List Entry} {e : Entry} {dirs : List GoString} {name : GoString} :
      e ∈ es → e.isDir = true → FileAt e.children dirs name → FileAt es (e.name :: dirs) name

/-- The path of a file reached from `base` through `dirs`. -/
def filePath (base : GoString) (dirs : List GoString) (name : GoString) : GoString :=
  pathJoin (dirs.foldl pathJoin base) name

mutual
/-- Every directory at or beneath the entry can be listed. -/
def Entry.readable : Entry → Bool
  | .file _ => true
  | .dir _ entries => readableAll entries
  | .errDir _ _ => false
/-- Every directory at or beneath the entries can be listed. -/
def readableAll : List Entry → Bool
  | [] => true
  | e :: rest => e.readable && readableAll rest
end

mutual
/-- File-system well-formedness at and beneath the entry: no name contains the
separator, and the names within one directory are distinct. -/
def Entry.wellFormed : Entry → Bool
  | .file n => decide ('/' ∉ n)
  | .dir n entries =>
    decide ('/' ∉ n) && (wellFormedAll entries && decide ((entries.map Entry.name).Nodup))
  | .errDir n entries =>
    decide ('/' ∉ n) && (wellFormedAll entries && decide ((entries.map Entry.name).Nodup))
/-- File-system well-formedness of every entry of a listing. -/
def wellFormedAll : List Entry → Bool
  | [] => true
  | e :: rest => e.wellFormed && wellFormedAll rest
end

/-- The root-level entries that `getArtists` turns into artists. -/
def isArtistDir (e : Entry) : Bool := e.isDir && !HasPrefix e.name ['.']

mutual
/-- Every character of every name at or beneath the entry passes the test `ok`. -/
def Entry.namesAll (ok : Char → Bool) : Entry → Bool
  | .file n => n.all ok
  | .dir n entries => n.all ok && namesAllIn ok entries
  | .errDir n entries => n.all ok && namesAllIn ok entries
/-- Every character of every name at or beneath the entries passes the test `ok`. -/
def namesAllIn (ok : Char → Bool) : List Entry → Bool
  | [] => true
  | e :: rest => e.namesAll ok && namesAllIn ok rest
end

/-- Every character of every file and directory name of the library passes the
test `ok` (nothing to test when the root cannot be listed). -/
def rootNamesAll (ok : Char → Bool) (root : Option (List Entry)) : Bool :=
  match root with
  | none => true
  | some entries => namesAllIn ok entries

/-- The character is not a line break. -/
def notLineBreak (c : Char) : Bool := decide (c ≠ '\n')

/-- The character is ordered above the line break. -/
def aboveLineBreak (c : Char) : Bool := decide ('\n' < c)

/-! ## Search response, maps, index oracle -/

/-- One item of the search response: `item.Id.Kind`, `item.Id.VideoId`,
`item.Snippet.Title`. -/
structure Item where
  Kind : GoString
  VideoId : GoString
  Title : GoString
deriving DecidableEq, Repr

/-- The constant `"youtube#video"`. -/
def videoKind : GoString := "youtube#video".toList

/-- The assignment `m[k] = v` on a `map[string]string`, kept as an association list
with distinct keys. -/
def mapSet : List (GoString × GoString) → GoString → GoString → List (GoString × GoString)
  | [], k, v => [(k, v)]
  | (k0, v0) :: rest, k, v =>
    if k0 = k then (k, v) :: rest else (k0, v0) :: mapSet rest k v

/-- Lines 92-99: the `videos` map built from the response items. -/
def collectVideos (items : List Item) : List (GoString × GoString) :=
  items.foldl
    (fun videos item => if item.Kind = videoKind then mapSet videos item.VideoId item.Title
      else videos) []

/-- The assignment `playlist[k] = true` on the `map[string]bool` used as a set,
kept as its list of distinct keys. -/
def setAdd (playlist : List GoString) (k : GoString) : List GoString :=
  if k ∈ playlist then playlist else playlist ++ [k]

/-- The bleve library as used by `main`: `NewMemOnly` (`none` on error),
`index.Index(id, data)` (its error is ignored by `main`), and `index.Search` of a
match query with the given text and fuzziness, returning the hit ids in rank
order (`none` on error). -/
structure Bleve (Index : Type) where
  newMemOnly : Option Index
  index : Index → GoString → GoString → Index
  search : Index → GoString → Nat → Option (List GoString)

/-- The order in which `range` visits a Go map: some rearrangement of its entries.
`videos i` is the order used for the `videos` map of the artist at position `i`,
`keys` the order used for the `playlist` map. -/
structure RangeOrder where
  videos : Nat → List (GoString × GoString) → List (GoString × GoString)
  videos_perm : ∀ i m, (videos i m).Perm m
  keys : List GoString → List GoString
  keys_perm : ∀ m, (keys m).Perm m

/-- Observable effects of the loop other than the playlist. -/
inductive Event where
  | stdout (line : GoString)
  | search (q : GoString) (maxResults : Int)
  | logged
deriving DecidableEq, Repr

/-- The mutable state of the loop of `main`: the keys of `playlist` and the
effects so far. -/
structure RunState where
  playlist : List GoString
  events : List Event
deriving Repr

/-- Lines 107-109: the index after indexing every song of the artist. -/
def buildIndex {Index : Type} (B : Bleve Index) (ix : Index) (songs : List Song) : Index :=
  songs.foldl (fun ix s => B.index ix s.RelativePath s.Title) ix

/-- Lines 112-124: one turn of the loop over the candidate titles. -/
def matchTitle {Index : Type} (B : Bleve Index) (path : GoString) (ix : Index)
    (st : RunState) (title : GoString) : RunState :=
  match B.search ix title 1 with
  | none => { st with events := st.events ++ [Event.logged] }
  | some [] => st
  | some (hit :: _) =>
    { playlist := setAdd st.playlist (Sprintln (TrimPrefix hit path)),
      events := st.events ++ [Event.stdout (TrimPrefix hit path)] }

/-- Lines 76-126: one turn of the loop over the artists, for the artist at
position `i`. -/
def artistStep {Index : Type} (service : GoString → Int → Option (List Item)) (B : Bleve Index)
    (order : RangeOrder) (path : GoString) (maxResults skip : Int)
    (i : Nat) (st : RunState) (artist : Artist) : RunState :=
  let st1 : RunState := { st with events := st.events ++ [Event.stdout artist.Name] }
  if (i : Int) < skip then st1
  else
    let st2 : RunState := { st1 with events := st1.events ++ [Event.search artist.Name maxResults] }
    match service artist.Name maxResults with
    | none => { st2 with events := st2.events ++ [Event.logged] }
    | some items =>
      match B.newMemOnly with
      | none => { st2 with events := st2.events ++ [Event.logged] }
      | some ix0 =>
        (order.videos i (collectVideos items)).foldl
          (fun s kv => matchTitle B path (buildIndex B ix0 artist.Songs) s kv.2) st2

/-- Lines 75-128: the loop over the artists from position `i` on. -/
def rangeArtists {Index : Type} (service : GoString → Int → Option (List Item)) (B : Bleve Index)
    (order : RangeOrder) (path : GoString) (maxResults skip : Int) :
    Nat → RunState → List Artist → RunState
  | _, st, [] => st
  | i, st, a :: rest =>
    rangeArtists service B order path maxResults skip (i + 1)
      (artistStep service B order path maxResults skip i st a) rest

/-- The playlist key one candidate title yields: the top hit of its query with
the root prefix trimmed and a line break appended; nothing on an error or when
there is no hit (lines 112-124 read as a function of the title). -/
def titleKey {Index : Type} (B : Bleve Index) (path : GoString) (ix : Index)
    (title : GoString) : Option GoString :=
  match B.search ix title 1 with
  | some (hit :: _) => some (Sprintln (TrimPrefix hit path))
  | _ => none

/-- The playlist keys one artist's turn yields, listed in the order of the
`videos` association list (lines 81-126 read as a function of the artist). -/
def artistKeys {Index : Type} (service : GoString → Int → Option (List Item)) (B : Bleve Index)
    (path : GoString) (maxResults : Int) (a : Artist) : List GoString :=
  match service a.Name maxResults with
  | none => []
  | some items =>
    match B.newMemOnly with
    | none => []
    | some ix0 =>
      (collectVideos items).filterMap (fun kv => titleKey B path (buildIndex B ix0 a.Songs) kv.2)

/-- The matched path one candidate title yields: the id of the top hit of its
query with the root prefix trimmed; nothing on an error or when there is no hit. -/
def titleMatch {Index : Type} (B : Bleve Index) (path : GoString) (ix : Index)
    (title : GoString) : Option GoString :=
  match B.search ix title 1 with
  | some (hit :: _) => some (TrimPrefix hit path)
  | _ => none

/-- The matched paths of one artist, one per candidate of the `videos` map whose
query has a hit (a path occurs as often as candidates matched it); none when the
search request or the index creation fails. -/
def artistMatches {Index : Type} (service : GoString → Int → Option (List Item))
    (B : Bleve Index) (path : GoString) (maxResults : Int) (a : Artist) : List GoString :=
  match service a.Name maxResults with
  | none => []
  | some items =>
    match B.newMemOnly with
    | none => []
    | some ix0 =>
      (collectVideos items).filterMap
        (fun kv => titleMatch B path (buildIndex B ix0 a.Songs) kv.2)

/-- The matched paths of a run: those of every artist at a position that is not
skipped, with repetitions. -/
def allMatches {Index : Type} (service : GoString → Int → Option (List Item))
    (B : Bleve Index) (path : GoString) (maxResults skip : Int) (artists : List Artist) :
    List GoString :=
  (artists.drop skip.toNat).flatMap (artistMatches service B path maxResults)

/-- Every hit of a query over the index built from a song list is the id under
which one of those songs was indexed. -/
def Bleve.hitsIndexed {Index : Type} (B : Bleve Index) : Prop :=
  ∀ ix0 songs title hits, B.newMemOnly = some ix0 →
    B.search (buildIndex B ix0 songs) title 1 = some hits →
    ∀ h ∈ hits, h ∈ songs.map Song.RelativePath

/-! ## Playlist writer -/

/-- Go's `<` on strings: byte-wise lexicographic. -/
def strLess : GoString → GoString → Bool
  | _, [] => false
  | [], _ :: _ => true
  | a :: as, b :: bs => if a < b then true else if b < a then false else strLess as bs

/-- Go's `<=` on strings. -/
def strLe (a b : GoString) : Prop := strLess b a = false

instance : DecidableRel strLe := fun a b => inferInstanceAs (Decidable (strLess b a = false))

/-- The effect of `sort.Strings(keys)`: the keys rearranged in ascending order
(the standard library routine is replaced by insertion sort over the same order). -/
def sortStrings (keys : List GoString) : List GoString := List.insertionSort strLe keys

/-- The header text written first. -/
def header : GoString := "#EXTM3U".toList

/-- Lines 71 and 130-137: the bytes written to the file for a final `playlist`. -/
def writePlaylist (order : RangeOrder) (playlist : List GoString) : GoString :=
  (sortStrings (order.keys playlist)).foldl (fun f k => f ++ k) (Sprintln header)

/-- Lines 71-139 of `main` for an already scanned artist list: the final loop
state. -/
def finalState {Index : Type} (service : GoString → Int → Option (List Item)) (B : Bleve Index)
    (order : RangeOrder) (path : GoString) (maxResults skip : Int)
    (artists : List Artist) : RunState :=
  rangeArtists service B order path maxResults skip 0 ⟨[], []⟩ artists

/-- The file content `main` writes for an already scanned artist list. -/
def playlistFile {Index : Type} (service : GoString → Int → Option (List Item)) (B : Bleve Index)
    (order : RangeOrder) (path : GoString) (maxResults skip : Int)
    (artists : List Artist) : GoString :=
  writePlaylist order (finalState service B order path maxResults skip artists).playlist

/-- The ways `main` aborts (`log.Fatalf`). -/
inductive Fatal where
  | noDevKey
  | noPath
  | clientError
  | createError
deriving DecidableEq, Repr

/-- Everything outside the program that `main` consults: the listing of the
library root, `youtube.New` (`none` on error) giving the search call
`Q(name).MaxResults(n)...Do()` (`none` on error), whether `os.Create` succeeds,
the bleve library, and the map iteration orders. -/
structure Env (Index : Type) where
  root : Option (List Entry)
  service : Option (GoString → Int → Option (List Item))
  canCreate : Bool
  bleve : Bleve Index
  order : RangeOrder

/-- What a completed run leaves behind. -/
structure Output where
  fileName : GoString
  file : GoString
  events : List Event
deriving Repr

/-- The function `main`, with the parsed flags as arguments. -/
def main {Index : Type} (path devKey : GoString) (maxResults : Int) (m3uFileName : GoString)
    (skip : Int) (env : Env Index) : Except Fatal Output :=
  if devKey = [] then .error Fatal.noDevKey
  else if path = [] then .error Fatal.noPath
  else
    match env.service with
    | none => .error Fatal.clientError
    | some service =>
      let artists := getArtists path env.root
      if env.canCreate = false then .error Fatal.createError
      else
        let st := finalState service env.bleve env.order path maxResults skip artists
        .ok { fileName := pathJoin path (m3uFileName ++ ".m3u".toList),
              file := writePlaylist env.order st.playlist,
              events := st.events }

/-! ## Reading the outputs back -/

/-- The lines of a text: every line break ends a line; a non-empty remainder
after the last line break is a line too. -/
def lines : GoString → List GoString
  | [] => []
  | c :: cs =>
    if c = '\n' then [] :: lines cs
    else
      match lines cs with
      | [] => [[c]]
      | l :: ls => (c :: l) :: ls

/-- The lines printed on standard output. -/
def printed : List Event → List GoString
  | [] => []
  | Event.stdout s :: es => s :: printed es
  | _ :: es => printed es

/-- The search requests issued, in order. -/
def searchCalls : List Event → List (GoString × Int)
  | [] => []
  | Event.search q n :: es => (q, n) :: searchCalls es
  | _ :: es => searchCalls es

/-- The records of a playlist in the order in which they are written, each without
its final line break. -/
def writtenPaths (order : RangeOrder) (playlist : List GoString) : List GoString :=
  (sortStrings (order.keys playlist)).map List.dropLast

/-! ## Concrete oracles used for the evaluated examples -/

/-- Map iteration in insertion order. -/
def inOrder : RangeOrder := ⟨fun _ m => m, fun _ _ => List.Perm.refl _, fun m => m, fun _ => List.Perm.refl _⟩

/-- Map iteration in reverse insertion order. -/
def revOrder : RangeOrder :=
  ⟨fun _ m => m.reverse, fun _ m => List.reverse_perm m, fun m => m.reverse, fun m => List.reverse_perm m⟩

/-- White space, at which the example index splits a text into terms. -/
def isSpace (c : Char) : Bool := c = ' ' || c = '\t' || c = '\n' || c = '\r'

/-- The terms of a text for the example index: the maximal runs of characters
other than white space, in lower case. -/
def terms : GoString → List GoString
  | [] => []
  | [c] => if isSpace c then [] else [[c.toLower]]
  | c :: d :: cs =>
    if isSpace c then terms (d :: cs)
    else if isSpace d then [c.toLower] :: terms (d :: cs)
    else
      match terms (d :: cs) with
      | [] => [[c.toLower]]
      | t :: ts => (c.toLower :: t) :: ts

/-- One row of the edit-distance table: from the row `diag :: up :: ...` of the
previous character and the value `left` just computed, the values of this row
after the first. -/
def nextRow (c : Char) : GoString → List Nat → Nat → List Nat
  | b :: bs, diag :: up :: rest, left =>
    (min (min (up + 1) (left + 1)) (diag + (if c = b then 0 else 1))) ::
      nextRow c bs (up :: rest)
        (min (min (up + 1) (left + 1)) (diag + (if c = b then 0 else 1)))
  | _, _, _ => []

/-- The number of single-character substitutions, insertions and deletions that
turn `a` into `b`. -/
def editDistance (a b : GoString) : Nat :=
  (a.foldl (fun row c => (row.headD 0 + 1) :: nextRow c b row (row.headD 0 + 1))
    (List.range (b.length + 1))).getLastD 0

/-- The index used for the evaluated examples.  Documents are kept in indexing
order, a document indexed again under the same id replacing the earlier one; a
match query hits the documents having a term within the given edit distance of a
term of the query text, listed in indexing order.  Stop words, splitting at
punctuation and the ranking of several hits are not modelled: the examples use
texts made of one lower-case word each that is no stop word, with at most one
document hit by a query. -/
def termIndex : Bleve (List (GoString × GoString)) where
  newMemOnly := some []
  index := fun ix id data => ix.filter (fun d => decide (d.1 ≠ id)) ++ [(id, data)]
  search := fun ix q fuzziness =>
    some ((ix.filter (fun d =>
      (terms q).any (fun t => (terms d.2).any (fun u => decide (editDistance t u ≤ fuzziness))))).map
        Prod.fst)

/-- Example library: the artist directory `Foo` holding the files `song` and `zed`. -/
def zedRoot : List Entry := [.dir "Foo".toList [.file "song".toList, .file "zed".toList]]

/-- Example service: for the query `Foo` the videos `zed`, `zee` and `song` (three
video ids); an error for any other query. -/
def zedService : GoString → Int → Option (List Item) :=
  fun q _ =>
    if q = "Foo".toList then
      some [⟨videoKind, "v1".toList, "zed".toList⟩, ⟨videoKind, "v2".toList, "zee".toList⟩,
        ⟨videoKind, "v3".toList, "song".toList⟩]
    else none

/-- Example environment around `zedRoot` and `zedService`. -/
def zedEnv : Env (List (GoString × GoString)) :=
  ⟨some zedRoot, some zedService, true, termIndex, inOrder⟩

/-- Example library: the artist directories `Baz` (holding `x`) and `Foo` (holding
`song` and `zed`); with `zedService` the request for `Baz` fails. -/
def bazZedRoot : List Entry :=
  [.dir "Baz".toList [.file "x".toList],
   .dir "Foo".toList [.file "song".toList, .file "zed".toList]]

/-- Example environment around `bazZedRoot` and `zedService`. -/
def bazZedEnv : Env (List (GoString × GoString)) :=
  ⟨some bazZedRoot, some zedService, true, termIndex, inOrder⟩

/-- Example library: the artist directory `Art` holding the file `zed` and the
directory `zed<TAB>qux`, which holds the file `song`. -/
def tabRoot : List Entry :=
  [.dir "Art".toList [.file "zed".toList, .dir "zed\tqux".toList [.file "song".toList]]]

/-- Example service: the videos `zed` and `song` for every query. -/
def tabService : GoString → Int → Option (List Item) :=
  fun _ _ => some [⟨videoKind, "v1".toList, "zed".toList⟩, ⟨videoKind, "v2".toList, "song".toList⟩]

/-- Example environment around `tabRoot` and `tabService`. -/
def tabEnv : Env (List (GoString × GoString)) :=
  ⟨some tabRoot, some tabService, true, termIndex, inOrder⟩

/-- Example library: an artist directory whose name is `A` followed by a line
break, holding `Foo/x`, and an artist directory `Foo` holding `x`. -/
def breakRoot : List Entry :=
  [.dir "A\n".toList [.dir "Foo".toList [.file "x".toList]], .dir "Foo".toList [.file "x".toList]]

/-- Example service: one video titled `x` for every query. -/
def xService : GoString → Int → Option (List Item) :=
  fun _ _ => some [⟨videoKind, "v1".toList, "x".toList⟩]

/-- Example environment around `breakRoot` and `xService`. -/
def breakEnv : Env (List (GoString × GoString)) :=
  ⟨some breakRoot, some xService, true, termIndex, inOrder⟩

/-- Example library: a dot directory `.git`, the artist directory `Foo` holding
`Album/b.mp3` and `a.mp3`, and a plain file at the root. -/
def nestedRoot : List Entry :=
  [.dir ".git".toList [.file "config".toList],
   .dir "Foo".toList [.dir "Album".toList [.file "b.mp3".toList], .file "a.mp3".toList],
   .file "top10.m3u".toList]

/-- The root-level entries other than dot directories. -/
def notDotDir (e : Entry) : Bool := !(e.isDir && HasPrefix e.name ['.'])

end Playlist


/-! ## The order on strings and sorting -/

namespace Playlist

theorem strLess_nil_right (a : GoString) : strLess a [] = false := by
  cases a <;> rfl

theorem strLess_cons_cons (a b : Char) (as bs : GoString) :
    strLess (a :: as) (b :: bs) = (if a < b then true else if b < a then false else strLess as bs) := rfl

theorem strLe_total (a b : GoString) : strLe a b ∨ strLe b a := by
  unfold strLe
  induction a generalizing b with
  | nil => left; exact strLess_nil_right b
  | cons x xs ih =>
    cases b with
    | nil => right; rfl
    | cons y ys =>
      simp only [strLess_cons_cons]
      rcases lt_trichotomy x y with h | h | h
      · left; simp [h, lt_asymm h]
      · subst h; simpa using ih ys
      · right; simp [h, lt_asymm h]

theorem strLe_trans {a b c : GoString} (h1 : strLe a b) (h2 : strLe b c) : strLe a c := by
  unfold strLe at *
  induction a generalizing b c with
  | nil => exact strLess_nil_right c
  | cons x xs ih =>
    cases b with
    | nil => simp [strLess] at h1
    | cons y ys =>
      cases c with
      | nil => simp [strLess] at h2
      | cons z zs =>
        simp only [strLess_cons_cons] at *
        rcases lt_trichotomy x y with h | h | h
        · rcases lt_trichotomy y z with g | g | g
          · simp [lt_asymm (lt_trans h g), lt_trans h g]
          · subst g; simp [h, lt_asymm h]
          · simp [g, lt_asymm g] at h2
        · subst h
          rcases lt_trichotomy x z with g | g | g
          · simp [g, lt_asymm g]
          · subst g; simp at h1 h2 ⊢; exact ih h1 h2
          · simp [g, lt_asymm g] at h2
        · simp [h, lt_asymm h] at h1

theorem strLe_antisymm {a b : GoString} (h1 : strLe a b) (h2 : strLe b a) : a = b := by
  unfold strLe at *
  induction a generalizing b with
  | nil => cases b with
    | nil => rfl
    | cons y ys => simp [strLess] at h2
  | cons x xs ih =>
    cases b with
    | nil => simp [strLess] at h1
    | cons y ys =>
      simp only [strLess_cons_cons] at *
      rcases lt_trichotomy x y with h | h | h
      · simp [h, lt_asymm h] at h2
      · subst h; simp at h1 h2; rw [ih h1 h2]
      · simp [h, lt_asymm h] at h1

instance : IsTotal GoString strLe := ⟨strLe_total⟩
instance : IsTrans GoString strLe := ⟨fun _ _ _ => strLe_trans⟩
instance : IsAntisymm GoString strLe := ⟨fun _ _ => strLe_antisymm⟩

theorem sortStrings_sorted (l : List GoString) : (sortStrings l).Sorted strLe :=
  List.sorted_insertionSort strLe l

theorem sortStrings_perm (l : List GoString) : (sortStrings l).Perm l :=
  List.perm_insertionSort strLe l

theorem sortStrings_congr {l1 l2 : List GoString} (h : l1.Perm l2) : sortStrings l1 = sortStrings l2 :=
  List.eq_of_perm_of_sorted (((sortStrings_perm l1).trans h).trans (sortStrings_perm l2).symm)
    (sortStrings_sorted l1) (sortStrings_sorted l2)

end Playlist
namespace Playlist

/-! ## Strings, lines and the written bytes -/

theorem HasPrefix_append (p r : GoString) : HasPrefix (p ++ r) p = true := by
  unfold HasPrefix
  rw [List.isPrefixOf_iff_prefix]
  exact List.prefix_append p r

theorem TrimPrefix_append (p r : GoString) : TrimPrefix (p ++ r) p = r := by
  unfold TrimPrefix
  rw [if_pos (HasPrefix_append p r), List.drop_left]

theorem Sprintln_injective {a b : GoString} (h : Sprintln a = Sprintln b) : a = b :=
  List.append_cancel_right h

theorem lines_cons_newline (cs : GoString) : lines ('\n' :: cs) = [] :: lines cs := by
  simp [lines]

theorem lines_cons_of_ne (c : Char) (cs : GoString) (h : c ≠ '\n') :
    lines (c :: cs) = (match lines cs with
      | [] => [[c]]
      | l :: ls => (c :: l) :: ls) := by
  simp [lines, h]

theorem lines_append_newline_ne_nil (a : GoString) : lines (a ++ ['\n']) ≠ [] := by
  induction a with
  | nil => simp [lines]
  | cons c cs ih =>
    simp only [List.cons_append, lines]
    split
    · simp
    · split <;> simp

theorem lines_append_newline_cons (a r : GoString) :
    lines (a ++ '\n' :: r) = lines (a ++ ['\n']) ++ lines r := by
  induction a with
  | nil => simp [lines]
  | cons c cs ih =>
    by_cases hc : c = '\n'
    · subst hc
      simp [lines_cons_newline, ih]
    · rw [List.cons_append, List.cons_append, lines_cons_of_ne _ _ hc, lines_cons_of_ne _ _ hc, ih]
      have h := lines_append_newline_ne_nil cs
      cases hl : lines (cs ++ ['\n']) with
      | nil => exact absurd hl h
      | cons l ls => simp

theorem lines_Sprintln_append (a r : GoString) :
    lines (Sprintln a ++ r) = lines (Sprintln a) ++ lines r := by
  unfold Sprintln
  rw [List.append_assoc]
  exact lines_append_newline_cons a r

theorem lines_Sprintln {p : GoString} (h : '\n' ∉ p) : lines (Sprintln p) = [p] := by
  unfold Sprintln
  induction p with
  | nil => simp [lines]
  | cons c cs ih =>
    have hc : c ≠ '\n' := fun e => h (by simp [e])
    have hcs : '\n' ∉ cs := fun e => h (by simp [e])
    rw [List.cons_append, lines_cons_of_ne _ _ hc, ih hcs]

theorem foldl_append_eq (ks : List GoString) (f : GoString) :
    ks.foldl (fun f k => f ++ k) f = f ++ ks.flatten := by
  induction ks generalizing f with
  | nil => simp
  | cons k ks ih => simp [ih]

theorem writePlaylist_eq (order : RangeOrder) (pl : List GoString) :
    writePlaylist order pl = Sprintln header ++ (sortStrings (order.keys pl)).flatten := by
  unfold writePlaylist
  exact foldl_append_eq _ _

/-- The lines of a concatenation of newline-terminated records. -/
theorem lines_flatten_map_Sprintln (ps : List GoString) :
    lines ((ps.map Sprintln).flatten) = (ps.map (fun p => lines (Sprintln p))).flatten := by
  induction ps with
  | nil => simp [lines]
  | cons p ps ih => simp [lines_Sprintln_append, ih]

theorem lines_flatten_map_Sprintln_of_clean (ps : List GoString) (h : ∀ p ∈ ps, '\n' ∉ p) :
    lines ((ps.map Sprintln).flatten) = ps := by
  induction ps with
  | nil => simp [lines]
  | cons p ps ih =>
    simp only [List.map_cons, List.flatten_cons, lines_Sprintln_append]
    rw [lines_Sprintln (h p (by simp)), ih (fun q hq => h q (by simp [hq]))]
    rfl

theorem header_clean : '\n' ∉ header := by decide

end Playlist
namespace Playlist

/-! ## The match loop: which keys end up in the playlist -/

theorem mem_setAdd {pl : List GoString} {k x : GoString} : x ∈ setAdd pl k ↔ x ∈ pl ∨ x = k := by
  unfold setAdd
  split
  · constructor
    · intro h; exact Or.inl h
    · rintro (h | h)
      · exact h
      · subst h; assumption
  · simp

theorem nodup_setAdd {pl : List GoString} (k : GoString) (h : pl.Nodup) : (setAdd pl k).Nodup := by
  unfold setAdd
  split
  · exact h
  · rename_i hk
    rw [List.nodup_append]
    refine ⟨h, List.nodup_singleton k, ?_⟩
    intro a ha hb
    simp at hb
    subst hb
    exact hk ha

theorem matchTitle_playlist {Index : Type} (B : Bleve Index) (path : GoString) (ix : Index)
    (st : RunState) (title : GoString) :
    (matchTitle B path ix st title).playlist =
      (match titleKey B path ix title with
        | none => st.playlist
        | some k => setAdd st.playlist k) := by
  unfold matchTitle titleKey
  cases h : B.search ix title 1 with
  | none => rfl
  | some hits => cases hits <;> rfl

theorem mem_foldl_matchTitle {Index : Type} (B : Bleve Index) (path : GoString) (ix : Index)
    (l : List (GoString × GoString)) (st : RunState) (x : GoString) :
    x ∈ (l.foldl (fun s kv => matchTitle B path ix s kv.2) st).playlist ↔
      x ∈ st.playlist ∨ x ∈ l.filterMap (fun kv => titleKey B path ix kv.2) := by
  induction l generalizing st with
  | nil => simp
  | cons kv l ih =>
    rw [List.foldl_cons, ih, matchTitle_playlist]
    cases h : titleKey B path ix kv.2 with
    | none => simp [List.filterMap_cons, h]
    | some k =>
      simp only [List.filterMap_cons, h, mem_setAdd, List.mem_cons]
      tauto

theorem nodup_foldl_matchTitle {Index : Type} (B : Bleve Index) (path : GoString) (ix : Index)
    (l : List (GoString × GoString)) (st : RunState) (h : st.playlist.Nodup) :
    (l.foldl (fun s kv => matchTitle B path ix s kv.2) st).playlist.Nodup := by
  induction l generalizing st with
  | nil => exact h
  | cons kv l ih =>
    rw [List.foldl_cons]
    apply ih
    rw [matchTitle_playlist]
    cases titleKey B path ix kv.2 with
    | none => exact h
    | some k => exact nodup_setAdd k h

theorem mem_artistStep {Index : Type} (service : GoString → Int → Option (List Item))
    (B : Bleve Index) (order : RangeOrder) (path : GoString) (maxResults skip : Int)
    (i : Nat) (st : RunState) (a : Artist) (x : GoString) :
    x ∈ (artistStep service B order path maxResults skip i st a).playlist ↔
      x ∈ st.playlist ∨ (¬ ((i : Int) < skip) ∧ x ∈ artistKeys service B path maxResults a) := by
  unfold artistStep artistKeys
  by_cases hs : (i : Int) < skip
  · simp [hs]
  · simp only [hs, if_false, not_false_eq_true, true_and]
    cases service a.Name maxResults with
    | none => simp
    | some items =>
      cases B.newMemOnly with
      | none => simp
      | some ix0 =>
        simp only [mem_foldl_matchTitle]
        rw [((order.videos_perm i (collectVideos items)).filterMap _).mem_iff]

theorem nodup_artistStep {Index : Type} (service : GoString → Int → Option (List Item))
    (B : Bleve Index) (order : RangeOrder) (path : GoString) (maxResults skip : Int)
    (i : Nat) (st : RunState) (a : Artist) (h : st.playlist.Nodup) :
    (artistStep service B order path maxResults skip i st a).playlist.Nodup := by
  unfold artistStep
  by_cases hs : (i : Int) < skip
  · simpa [hs] using h
  · simp only [hs, if_false]
    cases service a.Name maxResults with
    | none => exact h
    | some items =>
      cases B.newMemOnly with
      | none => exact h
      | some ix0 => exact nodup_foldl_matchTitle B path _ _ _ h

theorem mem_rangeArtists {Index : Type} (service : GoString → Int → Option (List Item))
    (B : Bleve Index) (order : RangeOrder) (path : GoString) (maxResults skip : Int)
    (l : List Artist) (i : Nat) (st : RunState) (x : GoString) :
    x ∈ (rangeArtists service B order path maxResults skip i st l).playlist ↔
      x ∈ st.playlist ∨
        ∃ a ∈ l.drop (skip.toNat - i), x ∈ artistKeys service B path maxResults a := by
  induction l generalizing i st with
  | nil => simp [rangeArtists]
  | cons a rest ih =>
    rw [rangeArtists, ih, mem_artistStep]
    by_cases hs : (i : Int) < skip
    · have e : skip.toNat - i = (skip.toNat - (i + 1)) + 1 := by omega
      rw [e, List.drop_succ_cons]
      simp [hs]
    · have e : skip.toNat - i = 0 := by omega
      have e1 : skip.toNat - (i + 1) = 0 := by omega
      rw [e, e1]
      simp only [hs, not_false_eq_true, true_and, List.drop_zero, List.mem_cons,
        exists_eq_or_imp]
      tauto

theorem nodup_rangeArtists {Index : Type} (service : GoString → Int → Option (List Item))
    (B : Bleve Index) (order : RangeOrder) (path : GoString) (maxResults skip : Int)
    (l : List Artist) (i : Nat) (st : RunState) (h : st.playlist.Nodup) :
    (rangeArtists service B order path maxResults skip i st l).playlist.Nodup := by
  induction l generalizing i st with
  | nil => exact h
  | cons a rest ih =>
    rw [rangeArtists]
    exact ih _ _ (nodup_artistStep service B order path maxResults skip i st a h)

theorem mem_finalState {Index : Type} (service : GoString → Int → Option (List Item))
    (B : Bleve Index) (order : RangeOrder) (path : GoString) (maxResults skip : Int)
    (l : List Artist) (x : GoString) :
    x ∈ (finalState service B order path maxResults skip l).playlist ↔
      ∃ a ∈ l.drop skip.toNat, x ∈ artistKeys service B path maxResults a := by
  unfold finalState
  rw [mem_rangeArtists]
  simp

theorem nodup_finalState {Index : Type} (service : GoString → Int → Option (List Item))
    (B : Bleve Index) (order : RangeOrder) (path : GoString) (maxResults skip : Int)
    (l : List Artist) :
    (finalState service B order path maxResults skip l).playlist.Nodup :=
  nodup_rangeArtists service B order path maxResults skip l 0 _ List.nodup_nil

/-- The written bytes depend only on which keys the playlist holds. -/
theorem writePlaylist_congr (o1 o2 : RangeOrder) {p1 p2 : List GoString}
    (h1 : p1.Nodup) (h2 : p2.Nodup) (h : ∀ x, x ∈ p1 ↔ x ∈ p2) :
    writePlaylist o1 p1 = writePlaylist o2 p2 := by
  have hp : p1.Perm p2 := (List.perm_ext_iff_of_nodup h1 h2).2 h
  unfold writePlaylist
  rw [sortStrings_congr (((o1.keys_perm p1).trans hp).trans (o2.keys_perm p2).symm)]

end Playlist
namespace Playlist

/-! ## The match loop: what it prints and which requests it issues -/

theorem printed_append (a b : List Event) : printed (a ++ b) = printed a ++ printed b := by
  induction a with
  | nil => rfl
  | cons e es ih => cases e <;> simp [printed, ih]

theorem searchCalls_append (a b : List Event) :
    searchCalls (a ++ b) = searchCalls a ++ searchCalls b := by
  induction a with
  | nil => rfl
  | cons e es ih => cases e <;> simp [searchCalls, ih]

theorem matchTitle_events {Index : Type} (B : Bleve Index) (path : GoString) (ix : Index)
    (st : RunState) (title : GoString) :
    ∃ tr, (matchTitle B path ix st title).events = st.events ++ tr ∧ searchCalls tr = [] := by
  unfold matchTitle
  cases B.search ix title 1 with
  | none => exact ⟨[Event.logged], rfl, rfl⟩
  | some hits =>
    cases hits with
    | nil => exact ⟨[], by simp, rfl⟩
    | cons hit rest => exact ⟨[Event.stdout (TrimPrefix hit path)], rfl, rfl⟩

theorem foldl_matchTitle_events {Index : Type} (B : Bleve Index) (path : GoString) (ix : Index)
    (l : List (GoString × GoString)) (st : RunState) :
    ∃ tr, (l.foldl (fun s kv => matchTitle B path ix s kv.2) st).events = st.events ++ tr ∧
      searchCalls tr = [] := by
  induction l generalizing st with
  | nil => exact ⟨[], by simp, rfl⟩
  | cons kv l ih =>
    obtain ⟨t1, h1, c1⟩ := matchTitle_events B path ix st kv.2
    obtain ⟨t2, h2, c2⟩ := ih (matchTitle B path ix st kv.2)
    refine ⟨t1 ++ t2, ?_, ?_⟩
    · rw [List.foldl_cons, h2, h1, List.append_assoc]
    · rw [searchCalls_append, c1, c2]; rfl

theorem artistStep_events {Index : Type} (service : GoString → Int → Option (List Item))
    (B : Bleve Index) (order : RangeOrder) (path : GoString) (maxResults skip : Int)
    (i : Nat) (st : RunState) (a : Artist) :
    ∃ tr, (artistStep service B order path maxResults skip i st a).events =
        st.events ++ Event.stdout a.Name :: tr ∧
      searchCalls tr = (if (i : Int) < skip then [] else [(a.Name, maxResults)]) := by
  unfold artistStep
  by_cases hs : (i : Int) < skip
  · exact ⟨[], by simp [hs], by simp [hs, searchCalls]⟩
  · simp only [hs, if_false]
    cases service a.Name maxResults with
    | none =>
      exact ⟨[Event.search a.Name maxResults, Event.logged], by simp, by simp [searchCalls]⟩
    | some items =>
      cases B.newMemOnly with
      | none =>
        exact ⟨[Event.search a.Name maxResults, Event.logged], by simp, by simp [searchCalls]⟩
      | some ix0 =>
        obtain ⟨tr, h, c⟩ := foldl_matchTitle_events B path (buildIndex B ix0 a.Songs)
          (order.videos i (collectVideos items))
          ⟨st.playlist, st.events ++ [Event.stdout a.Name] ++ [Event.search a.Name maxResults]⟩
        refine ⟨Event.search a.Name maxResults :: tr, ?_, ?_⟩
        · simp only [h]; simp
        · simp [searchCalls, c]

theorem rangeArtists_events {Index : Type} (service : GoString → Int → Option (List Item))
    (B : Bleve Index) (order : RangeOrder) (path : GoString) (maxResults skip : Int)
    (l : List Artist) (i : Nat) (st : RunState) :
    ∃ tr, (rangeArtists service B order path maxResults skip i st l).events = st.events ++ tr ∧
      searchCalls tr = (l.drop (skip.toNat - i)).map (fun a => (a.Name, maxResults)) ∧
      (l.map Artist.Name).Sublist (printed tr) := by
  induction l generalizing i st with
  | nil => exact ⟨[], by simp [rangeArtists], by simp [searchCalls], by simp [printed]⟩
  | cons a rest ih =>
    obtain ⟨t1, h1, c1⟩ := artistStep_events service B order path maxResults skip i st a
    obtain ⟨t2, h2, c2, p2⟩ :=
      ih (i + 1) (artistStep service B order path maxResults skip i st a)
    refine ⟨Event.stdout a.Name :: t1 ++ t2, ?_, ?_, ?_⟩
    · rw [rangeArtists, h2, h1]; simp
    · have e0 : searchCalls (Event.stdout a.Name :: (t1 ++ t2)) = searchCalls (t1 ++ t2) := rfl
      rw [List.cons_append, e0, searchCalls_append, c1, c2]
      by_cases hs : (i : Int) < skip
      · have e : skip.toNat - i = (skip.toNat - (i + 1)) + 1 := by omega
        rw [e, List.drop_succ_cons]
        simp [hs]
      · have e : skip.toNat - i = 0 := by omega
        have e1 : skip.toNat - (i + 1) = 0 := by omega
        rw [e, e1]
        simp [hs]
    · have e0 : printed (Event.stdout a.Name :: (t1 ++ t2)) = a.Name :: printed (t1 ++ t2) := rfl
      rw [List.cons_append, e0, printed_append, List.map_cons]
      exact List.Sublist.cons₂ _ (p2.trans (List.sublist_append_right _ _))

end Playlist
namespace Playlist

/-! ## The run as a whole -/

theorem main_ok {Index : Type} (path devKey : GoString) (maxResults : Int) (m3uFileName : GoString)
    (skip : Int) (env : Env Index) (service : GoString → Int → Option (List Item))
    (hdev : devKey ≠ []) (hpath : path ≠ []) (hsvc : env.service = some service)
    (hcreate : env.canCreate = true) :
    main path devKey maxResults m3uFileName skip env =
      .ok { fileName := pathJoin path (m3uFileName ++ ".m3u".toList),
            file := playlistFile service env.bleve env.order path maxResults skip
              (getArtists path env.root),
            events := (finalState service env.bleve env.order path maxResults skip
              (getArtists path env.root)).events } := by
  unfold main
  rw [if_neg hdev, if_neg hpath, hsvc]
  simp [hcreate, playlistFile]

theorem writePlaylist_nil (order : RangeOrder) : writePlaylist order [] = Sprintln header := by
  unfold writePlaylist
  rw [List.Perm.eq_nil (order.keys_perm [])]
  rfl

theorem playlistFile_congr {Index : Type} (service : GoString → Int → Option (List Item))
    (B : Bleve Index) (o1 o2 : RangeOrder) (path : GoString) (maxResults s1 s2 : Int)
    (l1 l2 : List Artist)
    (h : ∀ x, (∃ a ∈ l1.drop s1.toNat, x ∈ artistKeys service B path maxResults a) ↔
      (∃ a ∈ l2.drop s2.toNat, x ∈ artistKeys service B path maxResults a)) :
    playlistFile service B o1 path maxResults s1 l1 =
      playlistFile service B o2 path maxResults s2 l2 := by
  unfold playlistFile
  apply writePlaylist_congr _ _ (nodup_finalState ..) (nodup_finalState ..)
  intro x
  rw [mem_finalState, mem_finalState]
  exact h x

/-- C6: for every skip value K and artist list, every artist's name is printed (in
order, the first K included); the search requests issued are exactly those for the
artists from position K on; the first K artists leave the playlist empty and issue
no request; the written file equals the one for the artists from position K on with
skip 0; K <= 0 skips nothing and K >= the number of artists gives the header alone. -/
theorem skip_processes_only_later_artists {Index : Type}
    (service : GoString → Int → Option (List Item)) (B : Bleve Index) (order : RangeOrder)
    (path : GoString) (maxResults K : Int) (artists : List Artist) :
    (artists.map Artist.Name).Sublist
        (printed (finalState service B order path maxResults K artists).events) ∧
      searchCalls (finalState service B order path maxResults K artists).events =
        (artists.drop K.toNat).map (fun a => (a.Name, maxResults)) ∧
      (finalState service B order path maxResults K (artists.take K.toNat)).playlist = [] ∧
      searchCalls (finalState service B order path maxResults K (artists.take K.toNat)).events
        = [] ∧
      playlistFile service B order path maxResults K artists =
        playlistFile service B order path maxResults 0 (artists.drop K.toNat) ∧
      (K ≤ 0 → playlistFile service B order path maxResults K artists =
        playlistFile service B order path maxResults 0 artists) ∧
      ((artists.length : Int) ≤ K →
        playlistFile service B order path maxResults K artists = Sprintln header) := by
  obtain ⟨tr, he, hc, hp⟩ :=
    rangeArtists_events service B order path maxResults K artists 0 ⟨[], []⟩
  obtain ⟨tr2, he2, hc2, -⟩ :=
    rangeArtists_events service B order path maxResults K (artists.take K.toNat) 0 ⟨[], []⟩
  have hfile : playlistFile service B order path maxResults K artists =
      playlistFile service B order path maxResults 0 (artists.drop K.toNat) :=
    playlistFile_congr service B order order path maxResults K 0 _ _ (fun x => by simp)
  refine ⟨?_, ?_, ?_, ?_, hfile, ?_, ?_⟩
  · unfold finalState; rw [he]; simpa using hp
  · unfold finalState; rw [he]; simpa using hc
  · apply List.eq_nil_iff_forall_not_mem.2
    intro x hx
    rw [mem_finalState] at hx
    obtain ⟨a, ha, -⟩ := hx
    rw [List.drop_take] at ha
    simp at ha
  · unfold finalState; rw [he2]
    simp only [List.nil_append, hc2, Nat.sub_zero]
    rw [List.drop_take]
    simp
  · intro hK
    rw [hfile]
    have : K.toNat = 0 := by omega
    rw [this, List.drop_zero]
  · intro hK
    rw [hfile]
    have hd : artists.drop K.toNat = [] := List.drop_eq_nil_of_le (by omega)
    rw [hd]
    unfold playlistFile
    have : (finalState service B order path maxResults 0 ([] : List Artist)).playlist = [] := rfl
    rw [this, writePlaylist_nil]

/-- C6, witness: with the two artists `Baz` and `Foo` and skip 2 the written file
is the header line alone. -/
theorem skip_processes_only_later_artists_witness :
    playlistFile zedService termIndex inOrder "path".toList 10 2
      (getArtists "path".toList (some bazZedRoot)) = Sprintln header :=
  (skip_processes_only_later_artists zedService termIndex inOrder "path".toList 10 2
    (getArtists "path".toList (some bazZedRoot))).2.2.2.2.2.2 (by decide)

/-- C7: when the search request for an artist fails (the artist is at a position
that is not skipped), the run does not abort, that artist's turn leaves the
playlist as it was, and the written file is the one obtained for the scanned list
without that artist. -/
theorem failed_search_drops_only_that_artist {Index : Type} (path devKey : GoString)
    (maxResults : Int) (m3uFileName : GoString) (skip : Int) (env : Env Index)
    (service : GoString → Int → Option (List Item)) (pre post : List Artist) (a : Artist)
    (hdev : devKey ≠ []) (hpath : path ≠ []) (hsvc : env.service = some service)
    (hcreate : env.canCreate = true)
    (hscan : getArtists path env.root = pre ++ a :: post)
    (hpos : skip ≤ (pre.length : Int))
    (hfail : service a.Name maxResults = none) :
    (∃ out, main path devKey maxResults m3uFileName skip env = .ok out ∧
        out.file = playlistFile service env.bleve env.order path maxResults skip (pre ++ post)) ∧
      (∀ i st, (artistStep service env.bleve env.order path maxResults skip i st a).playlist
        = st.playlist) ∧
      artistKeys service env.bleve path maxResults a = [] := by
  have hk : artistKeys service env.bleve path maxResults a = [] := by
    unfold artistKeys; rw [hfail]
  refine ⟨⟨_, main_ok path devKey maxResults m3uFileName skip env service hdev hpath hsvc hcreate,
    ?_⟩, ?_, hk⟩
  · show playlistFile _ _ _ _ _ _ _ = _
    rw [hscan]
    apply playlistFile_congr
    intro x
    have hle : skip.toNat ≤ pre.length := by omega
    rw [List.drop_append_of_le_length hle, List.drop_append_of_le_length hle]
    simp only [List.mem_append, List.mem_cons]
    constructor
    · rintro ⟨b, hb | hb | hb, hx⟩
      · exact ⟨b, Or.inl hb, hx⟩
      · subst hb; rw [hk] at hx; simp at hx
      · exact ⟨b, Or.inr hb, hx⟩
    · rintro ⟨b, hb | hb, hx⟩
      · exact ⟨b, Or.inl hb, hx⟩
      · exact ⟨b, Or.inr (Or.inr hb), hx⟩
  · intro i st
    unfold artistStep
    by_cases hs : (i : Int) < skip
    · simp [hs]
    · simp [hs, hfail]

/-- C9: two runs that differ only in the orders in which the `videos` maps and the
`playlist` map are iterated end alike and, when they complete, write the same file
name and byte-identical file contents. -/
theorem file_independent_of_map_order {Index : Type} (path devKey : GoString)
    (maxResults : Int) (m3uFileName : GoString) (skip : Int) (env : Env Index)
    (o1 o2 : RangeOrder) :
    (main path devKey maxResults m3uFileName skip { env with order := o1 }).map
        (fun out => (out.fileName, out.file)) =
      (main path devKey maxResults m3uFileName skip { env with order := o2 }).map
        (fun out => (out.fileName, out.file)) := by
  unfold main
  by_cases hdev : devKey = []
  · simp [hdev]
  · by_cases hpath : path = []
    · simp [hdev, hpath]
    · simp only [if_neg hdev, if_neg hpath]
      cases hs : env.service with
      | none => rfl
      | some service =>
        cases hc : env.canCreate with
        | false => rfl
        | true =>
          simp only [Except.map, Bool.true_eq_false, if_false]
          congr 2
          exact playlistFile_congr service env.bleve o1 o2 path maxResults skip skip _ _
            (fun x => Iff.rfl)

end Playlist
namespace Playlist

/-! ## The candidate map -/

theorem mapSet_spec (m : List (GoString × GoString)) (k v : GoString)
    (hm : (m.map Prod.fst).Nodup) :
    ((mapSet m k v).map Prod.fst).Nodup ∧
      ∀ x, x ∈ mapSet m k v ↔ x = (k, v) ∨ (x ∈ m ∧ x.1 ≠ k) := by
  induction m with
  | nil => simp [mapSet]
  | cons kv rest ih =>
    obtain ⟨k0, v0⟩ := kv
    simp only [List.map_cons, List.nodup_cons, List.mem_map, not_exists, not_and] at hm
    obtain ⟨hk0, hrest⟩ := hm
    obtain ⟨ih1, ih2⟩ := ih hrest
    by_cases h : k0 = k
    · subst h
      simp only [mapSet, if_true]
      refine ⟨?_, ?_⟩
      · simp only [List.map_cons, List.nodup_cons, List.mem_map, not_exists, not_and]
        exact ⟨hk0, hrest⟩
      · intro x
        simp only [List.mem_cons]
        constructor
        · rintro (hx | hx)
          · exact Or.inl hx
          · exact Or.inr ⟨Or.inr hx, fun e => hk0 x hx e⟩
        · rintro (hx | ⟨hx | hx, hne⟩)
          · exact Or.inl hx
          · subst hx; exact absurd rfl hne
          · exact Or.inr hx
    · simp only [mapSet, if_neg h]
      refine ⟨?_, ?_⟩
      · simp only [List.map_cons, List.nodup_cons, List.mem_map, not_exists, not_and]
        refine ⟨?_, ih1⟩
        intro x hx e
        rcases (ih2 x).1 hx with hx | ⟨hx, -⟩
        · subst hx; exact h e.symm
        · exact hk0 x hx e
      · intro x
        simp only [List.mem_cons, ih2]
        constructor
        · rintro (hx | hx | ⟨hx, hne⟩)
          · subst hx; exact Or.inr ⟨Or.inl rfl, h⟩
          · exact Or.inl hx
          · exact Or.inr ⟨Or.inr hx, hne⟩
        · rintro (hx | ⟨hx | hx, hne⟩)
          · exact Or.inr (Or.inl hx)
          · exact Or.inl hx
          · exact Or.inr (Or.inr ⟨hx, hne⟩)

theorem collectVideos_concat (l : List Item) (it : Item) :
    collectVideos (l ++ [it]) =
      (if it.Kind = videoKind then mapSet (collectVideos l) it.VideoId it.Title
        else collectVideos l) := by
  unfold collectVideos
  rw [List.foldl_append]
  rfl

/-- The `videos` map holds, for each video id, the title of the last video-kind
item carrying that id. -/
theorem collectVideos_spec (items : List Item) :
    ((collectVideos items).map Prod.fst).Nodup ∧
      ∀ k t, (k, t) ∈ collectVideos items ↔
        ∃ pre it post, items = pre ++ it :: post ∧ it.Kind = videoKind ∧ it.VideoId = k ∧
          it.Title = t ∧ ∀ j ∈ post, j.Kind = videoKind → j.VideoId ≠ k := by
  induction items using List.reverseRecOn with
  | nil => simp [collectVideos]
  | append_singleton l it ih =>
    obtain ⟨ih1, ih2⟩ := ih
    rw [collectVideos_concat]
    have back : ∀ k t, (∃ pre it0 post, l ++ [it] = pre ++ it0 :: post ∧ it0.Kind = videoKind ∧
        it0.VideoId = k ∧ it0.Title = t ∧ ∀ j ∈ post, j.Kind = videoKind → j.VideoId ≠ k) →
        (it.Kind = videoKind ∧ it.VideoId = k ∧ it.Title = t) ∨
        ((k, t) ∈ collectVideos l ∧ (it.Kind = videoKind → it.VideoId ≠ k)) := by
      rintro k t ⟨pre, it0, post, he, hk, hid, ht, hpost⟩
      rcases List.eq_nil_or_concat post with hp | ⟨L, b, hp⟩
      · subst hp
        have := List.append_inj' he rfl
        obtain ⟨-, e⟩ := this
        simp only [List.cons.injEq, and_true] at e
        subst e
        exact Or.inl ⟨hk, hid, ht⟩
      · subst hp
        have he2 : l ++ [it] = (pre ++ it0 :: L) ++ [b] := by simpa using he
        obtain ⟨e1, e2⟩ := List.append_inj' he2 rfl
        simp only [List.cons.injEq, and_true] at e2
        subst e1 e2
        refine Or.inr ⟨(ih2 k t).2 ⟨pre, it0, L, rfl, hk, hid, ht, ?_⟩, ?_⟩
        · intro j hj; exact hpost j (by simp [hj])
        · exact hpost it (by simp)
    have forth : ∀ k t, (k, t) ∈ collectVideos l → (it.Kind = videoKind → it.VideoId ≠ k) →
        ∃ pre it0 post, l ++ [it] = pre ++ it0 :: post ∧ it0.Kind = videoKind ∧
        it0.VideoId = k ∧ it0.Title = t ∧ ∀ j ∈ post, j.Kind = videoKind → j.VideoId ≠ k := by
      intro k t hmem hne
      obtain ⟨pre, it0, post, he, hk, hid, ht, hpost⟩ := (ih2 k t).1 hmem
      refine ⟨pre, it0, post ++ [it], by simp [he], hk, hid, ht, ?_⟩
      intro j hj
      rcases List.mem_append.1 hj with hj | hj
      · exact hpost j hj
      · simp only [List.mem_singleton] at hj; subst hj; exact hne
    by_cases hv : it.Kind = videoKind
    · simp only [hv, if_true]
      obtain ⟨m1, m2⟩ := mapSet_spec (collectVideos l) it.VideoId it.Title ih1
      refine ⟨m1, ?_⟩
      intro k t
      rw [m2]
      constructor
      · rintro (hx | ⟨hx, hne⟩)
        · simp only [Prod.mk.injEq] at hx
          exact ⟨l, it, [], rfl, hv, hx.1.symm, hx.2.symm, by simp⟩
        · exact forth k t hx (fun _ e => hne e.symm)
      · intro h
        rcases back k t h with ⟨-, hid, ht⟩ | ⟨hmem, hne⟩
        · left; rw [← hid, ← ht]
        · right; exact ⟨hmem, fun e => hne hv e.symm⟩
    · simp only [hv, if_false]
      refine ⟨ih1, ?_⟩
      intro k t
      constructor
      · intro hx; exact forth k t hx (fun h => absurd h hv)
      · intro h
        rcases back k t h with ⟨hk, -, -⟩ | ⟨hmem, -⟩
        · exact absurd hk hv
        · exact hmem

theorem titleKey_eq_some {Index : Type} (B : Bleve Index) (path : GoString) (ix : Index)
    (title x : GoString) :
    titleKey B path ix title = some x ↔
      ∃ hit rest, B.search ix title 1 = some (hit :: rest) ∧ x = Sprintln (TrimPrefix hit path) := by
  unfold titleKey
  cases h : B.search ix title 1 with
  | none => simp
  | some hits =>
    cases hits with
    | nil => simp
    | cons hit rest =>
      constructor
      · intro e
        exact ⟨hit, rest, rfl, (Option.some.inj e).symm⟩
      · rintro ⟨hit2, rest2, e1, e2⟩
        have e3 := List.cons.inj (Option.some.inj e1)
        rw [e2, ← e3.1]

theorem mem_artistKeys {Index : Type} (service : GoString → Int → Option (List Item))
    (B : Bleve Index) (path : GoString) (maxResults : Int) (a : Artist) (items : List Item)
    (ix0 : Index) (hresp : service a.Name maxResults = some items)
    (hix : B.newMemOnly = some ix0) (x : GoString) :
    x ∈ artistKeys service B path maxResults a ↔
      ∃ pre it post hit rest, items = pre ++ it :: post ∧ it.Kind = videoKind ∧
        (∀ j ∈ post, j.Kind = videoKind → j.VideoId ≠ it.VideoId) ∧
        B.search (buildIndex B ix0 a.Songs) it.Title 1 = some (hit :: rest) ∧
        x = Sprintln (TrimPrefix hit path) := by
  unfold artistKeys
  simp only [hresp, hix, List.mem_filterMap, Prod.exists, titleKey_eq_some]
  constructor
  · rintro ⟨k, t, hmem, hit, rest, hs, hx⟩
    obtain ⟨pre, it, post, he, hk, hid, ht, hpost⟩ := ((collectVideos_spec items).2 k t).1 hmem
    subst hid ht
    exact ⟨pre, it, post, hit, rest, he, hk, hpost, hs, hx⟩
  · rintro ⟨pre, it, post, hit, rest, he, hk, hpost, hs, hx⟩
    exact ⟨it.VideoId, it.Title,
      ((collectVideos_spec items).2 _ _).2 ⟨pre, it, post, he, hk, rfl, rfl, hpost⟩,
      hit, rest, hs, hx⟩

end Playlist
namespace Playlist

/-! ## The written records -/

theorem dropLast_Sprintln (p : GoString) : (Sprintln p).dropLast = p := by
  unfold Sprintln
  exact List.dropLast_concat

theorem map_Sprintln_dropLast (ks : List GoString) (h : ∀ k ∈ ks, ∃ q, k = Sprintln q) :
    (ks.map List.dropLast).map Sprintln = ks := by
  induction ks with
  | nil => rfl
  | cons k ks ih =>
    obtain ⟨q, hq⟩ := h k (by simp)
    simp only [List.map_cons, ih (fun k hk => h k (by simp [hk]))]
    rw [hq, dropLast_Sprintln]

theorem artistKeys_form {Index : Type} (service : GoString → Int → Option (List Item))
    (B : Bleve Index) (path : GoString) (maxResults : Int) (a : Artist) (x : GoString)
    (h : x ∈ artistKeys service B path maxResults a) : ∃ q, x = Sprintln q := by
  unfold artistKeys at h
  cases hs : service a.Name maxResults with
  | none => simp [hs] at h
  | some items =>
    cases hb : B.newMemOnly with
    | none => simp [hs, hb] at h
    | some ix0 =>
      simp only [hs, hb, List.mem_filterMap] at h
      obtain ⟨kv, -, hk⟩ := h
      obtain ⟨hit, rest, -, e⟩ := (titleKey_eq_some B path _ _ x).1 hk
      exact ⟨_, e⟩

theorem finalState_form {Index : Type} (service : GoString → Int → Option (List Item))
    (B : Bleve Index) (order : RangeOrder) (path : GoString) (maxResults skip : Int)
    (l : List Artist) :
    ∀ k ∈ (finalState service B order path maxResults skip l).playlist, ∃ q, k = Sprintln q := by
  intro k hk
  obtain ⟨a, -, ha⟩ := (mem_finalState service B order path maxResults skip l k).1 hk
  exact artistKeys_form service B path maxResults a k ha

/-- The written bytes, read as records: the header line, then the written paths,
each followed by a line break; the written paths are the playlist keys without
their line break, each once, and their records ascend. -/
theorem writePlaylist_records (order : RangeOrder) (pl : List GoString) (hn : pl.Nodup)
    (hf : ∀ k ∈ pl, ∃ q, k = Sprintln q) :
    writePlaylist order pl = Sprintln header ++ ((writtenPaths order pl).map Sprintln).flatten ∧
      (writtenPaths order pl).Nodup ∧
      (∀ p, p ∈ writtenPaths order pl ↔ Sprintln p ∈ pl) ∧
      ((writtenPaths order pl).map Sprintln).Sorted strLe := by
  have hperm : (sortStrings (order.keys pl)).Perm pl :=
    (sortStrings_perm _).trans (order.keys_perm pl)
  have hf2 : ∀ k ∈ sortStrings (order.keys pl), ∃ q, k = Sprintln q :=
    fun k hk => hf k (hperm.mem_iff.1 hk)
  have hmap : (writtenPaths order pl).map Sprintln = sortStrings (order.keys pl) :=
    map_Sprintln_dropLast _ hf2
  refine ⟨?_, ?_, ?_, ?_⟩
  · rw [hmap, writePlaylist_eq]
  · have : ((writtenPaths order pl).map Sprintln).Nodup := by
      rw [hmap]; exact hperm.nodup_iff.2 hn
    exact List.Nodup.of_map _ this
  · intro p
    rw [← hperm.mem_iff, ← hmap, List.mem_map]
    constructor
    · intro h; exact ⟨p, h, rfl⟩
    · rintro ⟨q, hq, e⟩; rw [← Sprintln_injective e]; exact hq
  · rw [hmap]; exact sortStrings_sorted _

theorem lines_records (recs : List GoString) (h : ∀ p ∈ recs, '\n' ∉ p) :
    lines (Sprintln header ++ (recs.map Sprintln).flatten) = header :: recs := by
  rw [lines_Sprintln_append, lines_Sprintln header_clean,
    lines_flatten_map_Sprintln_of_clean recs h]
  rfl

theorem strLess_Sprintln (q p : GoString) (hp : ∀ c ∈ p, '\n' < c)
    (h : strLess q p = true) : strLess (Sprintln q) (Sprintln p) = true := by
  unfold Sprintln
  induction q generalizing p with
  | nil =>
    cases p with
    | nil => simp [strLess] at h
    | cons c ps =>
      have : '\n' < c := hp c (by simp)
      simp [strLess, this]
  | cons d qs ih =>
    cases p with
    | nil => simp [strLess] at h
    | cons c ps =>
      simp only [List.cons_append, strLess_cons_cons] at h ⊢
      by_cases h1 : d < c
      · simp [h1]
      · by_cases h2 : c < d
        · simp [h1, h2] at h
        · simp only [h1, h2, if_false] at h ⊢
          exact ih ps (fun c hc => hp c (by simp [hc])) h

theorem strLe_of_Sprintln {p q : GoString} (hp : ∀ c ∈ p, '\n' < c)
    (h : strLe (Sprintln p) (Sprintln q)) : strLe p q := by
  unfold strLe at *
  by_contra hc
  have ht : strLess q p = true := by simpa using hc
  rw [strLess_Sprintln q p hp ht] at h
  exact absurd h (by simp)

theorem sorted_of_sorted_map_Sprintln (recs : List GoString)
    (hc : ∀ p ∈ recs, ∀ c ∈ p, '\n' < c) (h : (recs.map Sprintln).Sorted strLe) :
    recs.Sorted strLe := by
  induction recs with
  | nil => exact List.sorted_nil
  | cons p ps ih =>
    rw [List.map_cons, List.sorted_cons] at h
    rw [List.sorted_cons]
    refine ⟨?_, ih (fun q hq => hc q (by simp [hq])) h.2⟩
    intro q hq
    exact strLe_of_Sprintln (hc p (by simp)) (h.1 _ (List.mem_map_of_mem _ hq))

end Playlist

namespace Playlist

/-! ## The library scanner -/

theorem getSongsEntry_subset (p : GoString) {e : Entry} {es : List Entry} (h : e ∈ es) :
    ∀ s ∈ getSongsEntry p e, s ∈ getSongsLoop p es := by
  induction es with
  | nil => simp at h
  | cons x rest ih =>
    intro s hs
    rw [getSongsLoop, List.mem_append]
    rcases List.mem_cons.1 h with h | h
    · subst h; exact Or.inl hs
    · exact Or.inr (ih h s hs)

theorem readable_of_mem {e : Entry} {es : List Entry} (hr : readableAll es = true) (h : e ∈ es) :
    e.readable = true := by
  induction es with
  | nil => simp at h
  | cons x rest ih =>
    rw [readableAll, Bool.and_eq_true] at hr
    rcases List.mem_cons.1 h with h | h
    · subst h; exact hr.1
    · exact ih hr.2 h

theorem wellFormed_of_mem {e : Entry} {es : List Entry} (hw : wellFormedAll es = true)
    (h : e ∈ es) : e.wellFormed = true := by
  induction es with
  | nil => simp at h
  | cons x rest ih =>
    rw [wellFormedAll, Bool.and_eq_true] at hw
    rcases List.mem_cons.1 h with h | h
    · subst h; exact hw.1
    · exact ih hw.2 h

theorem filePath_cons (p d : GoString) (dirs : List GoString) (name : GoString) :
    filePath p (d :: dirs) name = filePath (pathJoin p d) dirs name := rfl

/-- Every file beneath a listing whose directories can all be listed is found. -/
theorem mem_getSongsLoop_of_FileAt {es : List Entry} {dirs : List GoString} {name : GoString}
    (h : FileAt es dirs name) :
    ∀ p, readableAll es = true → (⟨filePath p dirs name, name⟩ : Song) ∈ getSongsLoop p es := by
  induction h with
  | direct hmem =>
    intro p _
    exact getSongsEntry_subset p hmem _ (by simp [getSongsEntry, filePath])
  | @through es e dirs name hmem hdir _ ih =>
    intro p hr
    have hre := readable_of_mem hr hmem
    rw [filePath_cons]
    apply getSongsEntry_subset p hmem
    cases e with
    | file n => simp [Entry.isDir] at hdir
    | dir n sub =>
      rw [Entry.readable] at hre
      exact ih (pathJoin p n) hre
    | errDir n sub => simp [Entry.readable] at hre

theorem FileAt_mono {es es2 : List Entry} {dirs : List GoString} {name : GoString}
    (hsub : ∀ e ∈ es, e ∈ es2) (h : FileAt es dirs name) : FileAt es2 dirs name := by
  cases h with
  | direct hmem => exact FileAt.direct (hsub _ hmem)
  | through hmem hdir hf => exact FileAt.through (hsub _ hmem) hdir hf

mutual
/-- Every song found for an entry is a file at or beneath it. -/
theorem FileAt_of_mem_getSongsEntry : ∀ (e : Entry) (p : GoString) (s : Song),
    s ∈ getSongsEntry p e → ∀ es, e ∈ es →
      ∃ dirs name, FileAt es dirs name ∧ s = ⟨filePath p dirs name, name⟩
  | .file n, p, s, h, es, he => by
    refine ⟨[], n, FileAt.direct he, ?_⟩
    simpa [getSongsEntry, filePath] using h
  | .dir n sub, p, s, h, es, he => by
    rw [getSongsEntry] at h
    obtain ⟨dirs, name, hf, hs⟩ := FileAt_of_mem_getSongsLoop sub (pathJoin p n) s h
    exact ⟨n :: dirs, name, FileAt.through he rfl hf, hs⟩
  | .errDir n sub, p, s, h, es, he => by
    simp [getSongsEntry] at h
/-- Every song found for a listing is a file beneath it. -/
theorem FileAt_of_mem_getSongsLoop : ∀ (es : List Entry) (p : GoString) (s : Song),
    s ∈ getSongsLoop p es → ∃ dirs name, FileAt es dirs name ∧ s = ⟨filePath p dirs name, name⟩
  | [], p, s, h => by simp [getSongsLoop] at h
  | e :: rest, p, s, h => by
    rw [getSongsLoop, List.mem_append] at h
    rcases h with h | h
    · exact FileAt_of_mem_getSongsEntry e p s h (e :: rest) (List.mem_cons_self _ _)
    · obtain ⟨dirs, name, hf, hs⟩ := FileAt_of_mem_getSongsLoop rest p s h
      exact ⟨dirs, name, FileAt_mono (fun x hx => List.mem_cons_of_mem _ hx) hf, hs⟩
end

theorem foldl_pathJoin_shape (dirs : List GoString) (q : GoString) :
    ∃ u, (u = [] ∨ ∃ r, u = '/' :: r) ∧ dirs.foldl pathJoin q = q ++ u := by
  induction dirs generalizing q with
  | nil => exact ⟨[], Or.inl rfl, by simp⟩
  | cons d ds ih =>
    obtain ⟨u, -, hu⟩ := ih (pathJoin q d)
    refine ⟨'/' :: (d ++ u), Or.inr ⟨_, rfl⟩, ?_⟩
    rw [List.foldl_cons, hu]
    simp [pathJoin]

theorem filePath_shape (q : GoString) (dirs : List GoString) (name : GoString) :
    ∃ w, filePath q dirs name = q ++ '/' :: w := by
  obtain ⟨u, hu, e⟩ := foldl_pathJoin_shape dirs q
  unfold filePath
  rw [e]
  rcases hu with hu | ⟨r, hu⟩
  · subst hu; exact ⟨name, by simp [pathJoin]⟩
  · subst hu; exact ⟨r ++ '/' :: name, by simp [pathJoin]⟩

/-- The path of a file beneath a listing starts with the joined name of the
root-level entry it lies at or beneath, followed by nothing or by a separator. -/
theorem FileAt_path_shape {es : List Entry} {dirs : List GoString} {name : GoString}
    (h : FileAt es dirs name) (p : GoString) :
    ∃ e ∈ es, ∃ t, (t = [] ∨ ∃ r, t = '/' :: r) ∧
      filePath p dirs name = p ++ '/' :: (e.name ++ t) := by
  cases h with
  | direct hmem => exact ⟨_, hmem, [], Or.inl rfl, by simp [filePath, pathJoin, Entry.name]⟩
  | @through _ e dirs _ hmem hdir hf =>
    obtain ⟨w, hw⟩ := filePath_shape (pathJoin p e.name) dirs name
    refine ⟨e, hmem, '/' :: w, Or.inr ⟨_, rfl⟩, ?_⟩
    rw [filePath_cons, hw]
    simp [pathJoin]

theorem name_separation : ∀ (n1 n2 t1 t2 : GoString), '/' ∉ n1 → '/' ∉ n2 →
    (t1 = [] ∨ ∃ r, t1 = '/' :: r) → (t2 = [] ∨ ∃ r, t2 = '/' :: r) →
    n1 ++ t1 = n2 ++ t2 → n1 = n2
  | [], [], _, _, _, _, _, _, _ => rfl
  | [], d :: n2, t1, t2, _, h2, ht1, _, he => by
    exfalso
    rcases ht1 with ht1 | ⟨r, ht1⟩
    · subst ht1; simp at he
    · subst ht1
      simp only [List.nil_append, List.cons_append, List.cons.injEq] at he
      exact h2 (by rw [← he.1]; exact List.mem_cons_self _ _)
  | c :: n1, [], t1, t2, h1, _, _, ht2, he => by
    exfalso
    rcases ht2 with ht2 | ⟨r, ht2⟩
    · subst ht2; simp at he
    · subst ht2
      simp only [List.nil_append, List.cons_append, List.cons.injEq] at he
      exact h1 (by rw [he.1]; exact List.mem_cons_self _ _)
  | c :: n1, d :: n2, t1, t2, h1, h2, ht1, ht2, he => by
    simp only [List.cons_append, List.cons.injEq] at he
    have := name_separation n1 n2 t1 t2 (fun h => h1 (by simp [h])) (fun h => h2 (by simp [h]))
      ht1 ht2 he.2
    rw [he.1, this]

theorem name_clean_of_wellFormed {e : Entry} (h : e.wellFormed = true) : '/' ∉ e.name := by
  cases e <;> simp [Entry.wellFormed, Entry.name] at h ⊢ <;> tauto

mutual
/-- In a well-formed tree no song is found twice for an entry. -/
theorem nodup_getSongsEntry : ∀ (e : Entry) (p : GoString), e.wellFormed = true →
    (getSongsEntry p e).Nodup
  | .file n, p, _ => by simp [getSongsEntry]
  | .dir n sub, p, h => by
    rw [Entry.wellFormed, Bool.and_eq_true, Bool.and_eq_true, decide_eq_true_eq,
      decide_eq_true_eq] at h
    rw [getSongsEntry]
    exact nodup_getSongsLoop sub (pathJoin p n) h.2.1 h.2.2
  | .errDir n sub, p, _ => by simp [getSongsEntry]
/-- In a well-formed tree no song is found twice for a listing. -/
theorem nodup_getSongsLoop : ∀ (es : List Entry) (p : GoString), wellFormedAll es = true →
    (es.map Entry.name).Nodup → (getSongsLoop p es).Nodup
  | [], p, _, _ => by simp [getSongsLoop]
  | e :: rest, p, hw, hn => by
    rw [wellFormedAll, Bool.and_eq_true] at hw
    rw [List.map_cons, List.nodup_cons] at hn
    rw [getSongsLoop, List.nodup_append]
    refine ⟨nodup_getSongsEntry e p hw.1, nodup_getSongsLoop rest p hw.2 hn.2, ?_⟩
    intro s hs1 hs2
    obtain ⟨d1, m1, hf1, e1⟩ := FileAt_of_mem_getSongsEntry e p s hs1 [e] (by simp)
    obtain ⟨d2, m2, hf2, e2⟩ := FileAt_of_mem_getSongsLoop rest p s hs2
    obtain ⟨x1, hx1, t1, ht1, q1⟩ := FileAt_path_shape hf1 p
    obtain ⟨x2, hx2, t2, ht2, q2⟩ := FileAt_path_shape hf2 p
    have hx : x1 = e := by simpa using hx1
    subst hx
    have hpath : filePath p d1 m1 = filePath p d2 m2 := by
      have := e1.symm.trans e2
      exact (Song.mk.injEq ..).mp this |>.1
    rw [q1, q2] at hpath
    have hcut := List.append_cancel_left hpath
    simp only [List.cons.injEq, true_and] at hcut
    have hname := name_separation _ _ _ _ (name_clean_of_wellFormed hw.1)
      (name_clean_of_wellFormed (wellFormed_of_mem hw.2 hx2)) ht1 ht2 hcut
    exact hn.1 (by rw [hname]; exact List.mem_map_of_mem _ hx2)
end

end Playlist
namespace Playlist

theorem HasPrefix_dot (s : GoString) : HasPrefix s ['.'] = true ↔ ∃ r, s = '.' :: r := by
  cases s with
  | nil => simp [HasPrefix, List.isPrefixOf]
  | cons c r =>
    simp only [HasPrefix, List.isPrefixOf, Bool.and_true, beq_iff_eq, List.cons.injEq,
      exists_and_left, exists_eq', and_true]
    exact eq_comm

theorem mem_getArtistsLoop (path : GoString) (es : List Entry) (a : Artist)
    (h : a ∈ getArtistsLoop path es) :
    ∃ e ∈ es, isArtistDir e = true ∧
      a = ⟨e.name, getSongs (pathJoin path e.name) e.listing⟩ := by
  induction es with
  | nil => simp [getArtistsLoop] at h
  | cons e rest ih =>
    rw [getArtistsLoop] at h
    by_cases hc : (e.isDir && !HasPrefix e.name ['.']) = true
    · rw [if_pos hc] at h
      rcases List.mem_cons.1 h with h | h
      · exact ⟨e, List.mem_cons_self _ _, hc, h⟩
      · obtain ⟨x, hx, r⟩ := ih h
        exact ⟨x, List.mem_cons_of_mem _ hx, r⟩
    · rw [if_neg hc] at h
      obtain ⟨x, hx, r⟩ := ih h
      exact ⟨x, List.mem_cons_of_mem _ hx, r⟩

theorem getSongs_path_shape (q : GoString) (listing : Option (List Entry)) (s : Song)
    (h : s ∈ getSongs q listing) : ∃ w, s.RelativePath = q ++ '/' :: w := by
  cases listing with
  | none => simp [getSongs] at h
  | some sub =>
    obtain ⟨dirs, name, -, e⟩ := FileAt_of_mem_getSongsLoop sub q s h
    obtain ⟨w, hw⟩ := filePath_shape q dirs name
    exact ⟨w, by rw [e]; exact hw⟩

theorem getArtistsLoop_filter (path : GoString) (es : List Entry) :
    getArtistsLoop path (es.filter notDotDir) = getArtistsLoop path es := by
  induction es with
  | nil => rfl
  | cons e rest ih =>
    by_cases hd : e.isDir = true
    · by_cases hp : HasPrefix e.name ['.'] = true
      · simp [List.filter_cons, notDotDir, getArtistsLoop, hd, hp, ih]
      · simp [List.filter_cons, notDotDir, getArtistsLoop, hd, hp, ih]
    · simp [List.filter_cons, notDotDir, getArtistsLoop, hd, ih]

/-- The scan of one readable, well-formed artist directory. -/
theorem artist_songs_exact (path : GoString) (e : Entry) (hd : e.isDir = true)
    (hr : e.readable = true) (hw : e.wellFormed = true) :
    (∀ dirs name, FileAt e.children dirs name →
        (getSongs (pathJoin path e.name) e.listing).count
          ⟨filePath (pathJoin path e.name) dirs name, name⟩ = 1) ∧
      (∀ s ∈ getSongs (pathJoin path e.name) e.listing, ∃ dirs name,
        FileAt e.children dirs name ∧ s = ⟨filePath (pathJoin path e.name) dirs name, name⟩) := by
  cases e with
  | file n => simp [Entry.isDir] at hd
  | errDir n sub => simp [Entry.readable] at hr
  | dir n sub =>
    rw [Entry.readable] at hr
    rw [Entry.wellFormed, Bool.and_eq_true, Bool.and_eq_true, decide_eq_true_eq,
      decide_eq_true_eq] at hw
    simp only [Entry.listing, Entry.children, Entry.name, getSongs]
    refine ⟨?_, ?_⟩
    · intro dirs name hf
      exact List.count_eq_one_of_mem (nodup_getSongsLoop sub _ hw.2.1 hw.2.2)
        (mem_getSongsLoop_of_FileAt hf _ hr)
    · intro s hs
      exact FileAt_of_mem_getSongsLoop sub _ s hs

/-- C2: for a library tree in which every directory can be listed (and, as in any
file system, names hold no separator and are distinct within a directory),
`getArtists` returns one Artist per root-level directory whose name does not start
with a dot, in listing order, named after it; its Songs hold every non-directory
file at any depth beneath that directory exactly once, with Title the file name
and RelativePath the joined path, and nothing else. -/
theorem scanner_finds_every_file (path : GoString) (entries : List Entry)
    (hread : readableAll entries = true) (hwf : wellFormedAll entries = true) :
    (getArtists path (some entries)).length = (entries.filter isArtistDir).length ∧
      List.Forall₂
        (fun e a => a.Name = e.name ∧
          (∀ dirs name, FileAt e.children dirs name →
            a.Songs.count ⟨filePath (pathJoin path e.name) dirs name, name⟩ = 1) ∧
          (∀ s ∈ a.Songs, ∃ dirs name, FileAt e.children dirs name ∧
            s = ⟨filePath (pathJoin path e.name) dirs name, name⟩))
        (entries.filter isArtistDir) (getArtists path (some entries)) := by
  have key : List.Forall₂
      (fun e a => a.Name = e.name ∧
        (∀ dirs name, FileAt e.children dirs name →
          a.Songs.count ⟨filePath (pathJoin path e.name) dirs name, name⟩ = 1) ∧
        (∀ s ∈ a.Songs, ∃ dirs name, FileAt e.children dirs name ∧
          s = ⟨filePath (pathJoin path e.name) dirs name, name⟩))
      (entries.filter isArtistDir) (getArtists path (some entries)) := by
    simp only [getArtists]
    induction entries with
    | nil => simp [getArtistsLoop]
    | cons e rest ih =>
      rw [readableAll, Bool.and_eq_true] at hread
      rw [wellFormedAll, Bool.and_eq_true] at hwf
      have ih2 := ih hread.2 hwf.2
      by_cases hc : isArtistDir e = true
      · have hc2 : (e.isDir && !HasPrefix e.name ['.']) = true := hc
        rw [List.filter_cons, if_pos hc, getArtistsLoop, if_pos hc2]
        have hd : e.isDir = true := by
          rw [Bool.and_eq_true] at hc2; exact hc2.1
        obtain ⟨a1, a2⟩ := artist_songs_exact path e hd hread.1 hwf.1
        exact List.Forall₂.cons ⟨rfl, a1, a2⟩ ih2
      · have hc2 : ¬ (e.isDir && !HasPrefix e.name ['.']) = true := hc
        rw [List.filter_cons, if_neg hc, getArtistsLoop, if_neg hc2]
        exact ih2
  exact ⟨key.length_eq.symm, key⟩

/-- C2, witness: the library `.git/config`, `Foo/Album/b.mp3`, `Foo/a.mp3`,
`top10.m3u` has one artist. -/
theorem scanner_finds_every_file_witness :
    (getArtists "path".toList (some nestedRoot)).length =
      (nestedRoot.filter isArtistDir).length ∧
    (getArtists "path".toList (some nestedRoot)) =
      [⟨"Foo".toList, [⟨"path/Foo/Album/b.mp3".toList, "b.mp3".toList⟩,
        ⟨"path/Foo/a.mp3".toList, "a.mp3".toList⟩]⟩] :=
  ⟨(scanner_finds_every_file "path".toList nestedRoot (by decide) (by decide)).1, by decide⟩

/-- C3: no Artist returned by `getArtists` is named with a leading dot; no song
path of a returned Artist is the path of a file beneath a root-level directory
whose name starts with a dot; and the result is the same as for the root listing
with those directories removed. -/
theorem dot_directories_never_artists (path : GoString) (root : Option (List Entry))
    (a : Artist) (ha : a ∈ getArtists path root) :
    HasPrefix a.Name ['.'] = false ∧
      (∀ entries d dirs name, root = some entries → d ∈ entries → d.isDir = true →
        HasPrefix d.name ['.'] = true → FileAt d.children dirs name →
        ∀ s ∈ a.Songs, s.RelativePath ≠ filePath (pathJoin path d.name) dirs name) ∧
      getArtists path root = getArtists path (root.map (List.filter notDotDir)) := by
  cases root with
  | none => simp [getArtists] at ha
  | some es =>
    simp only [getArtists] at ha
    obtain ⟨e, -, hart, hae⟩ := mem_getArtistsLoop path es a ha
    have hnodot : HasPrefix e.name ['.'] = false := by
      unfold isArtistDir at hart
      rw [Bool.and_eq_true] at hart
      simpa using hart.2
    subst hae
    refine ⟨hnodot, ?_, ?_⟩
    · intro entries d dirs name _ _ _ hdot _ s hs heq
      obtain ⟨w, hw⟩ := getSongs_path_shape _ _ s hs
      obtain ⟨w2, hw2⟩ := filePath_shape (pathJoin path d.name) dirs name
      obtain ⟨r, hr⟩ := (HasPrefix_dot d.name).1 hdot
      rw [hw, hw2, hr] at heq
      simp only [pathJoin, List.append_assoc, List.cons_append] at heq
      have hcut := List.append_cancel_left heq
      simp only [List.cons.injEq, true_and] at hcut
      cases hn : e.name with
      | nil => rw [hn] at hcut; simp at hcut
      | cons c cs =>
        rw [hn] at hcut hnodot
        simp only [List.cons_append, List.cons.injEq] at hcut
        have : HasPrefix (c :: cs) ['.'] = true := (HasPrefix_dot _).2 ⟨cs, by rw [hcut.1]⟩
        rw [this] at hnodot
        exact absurd hnodot (by simp)
    · simp only [getArtists, Option.map_some']
      exact (getArtistsLoop_filter path es).symm

/-- C3, witness: in the library `.git/config`, `Foo/Album/b.mp3`, `Foo/a.mp3`,
`top10.m3u` the artist `Foo` has no leading dot and its song `path/Foo/a.mp3` is
not the file `path/.git/config`. -/
theorem dot_directories_never_artists_witness :
    HasPrefix "Foo".toList ['.'] = false ∧
      "path/Foo/a.mp3".toList ≠ filePath (pathJoin "path".toList ".git".toList) [] "config".toList ∧
      getArtists "path".toList (some nestedRoot) =
        getArtists "path".toList (some (nestedRoot.filter notDotDir)) :=
  have w := dot_directories_never_artists "path".toList (some nestedRoot)
    ⟨"Foo".toList, [⟨"path/Foo/Album/b.mp3".toList, "b.mp3".toList⟩,
      ⟨"path/Foo/a.mp3".toList, "a.mp3".toList⟩]⟩ (by decide)
  ⟨w.1,
    w.2.1 nestedRoot (.dir ".git".toList [.file "config".toList]) [] "config".toList rfl
      (List.mem_cons_self _ _) rfl (by decide) (FileAt.direct (List.mem_cons_self _ _))
      ⟨"path/Foo/a.mp3".toList, "a.mp3".toList⟩ (by decide),
    w.2.2⟩

end Playlist

namespace Playlist

/-! ## Matched paths: what the hits are and where they come from -/

theorem titleKey_eq_map {Index : Type} (B : Bleve Index) (path : GoString) (ix : Index)
    (title : GoString) :
    titleKey B path ix title = (titleMatch B path ix title).map Sprintln := by
  unfold titleKey titleMatch
  cases B.search ix title 1 with
  | none => rfl
  | some hits => cases hits <;> rfl

theorem artistKeys_eq_map {Index : Type} (service : GoString → Int → Option (List Item))
    (B : Bleve Index) (path : GoString) (maxResults : Int) (a : Artist) :
    artistKeys service B path maxResults a =
      (artistMatches service B path maxResults a).map Sprintln := by
  unfold artistKeys artistMatches
  cases service a.Name maxResults with
  | none => rfl
  | some items =>
    cases B.newMemOnly with
    | none => rfl
    | some ix0 =>
      simp only [List.map_filterMap]
      congr 1
      funext kv
      exact titleKey_eq_map B path _ kv.2

/-- A key is in the final playlist exactly when it is the record of a matched
path of the run. -/
theorem mem_playlist_iff_match {Index : Type} (service : GoString → Int → Option (List Item))
    (B : Bleve Index) (order : RangeOrder) (path : GoString) (maxResults skip : Int)
    (l : List Artist) (p : GoString) :
    Sprintln p ∈ (finalState service B order path maxResults skip l).playlist ↔
      p ∈ allMatches service B path maxResults skip l := by
  rw [mem_finalState]
  unfold allMatches
  rw [List.mem_flatMap]
  constructor
  · rintro ⟨a, ha, hk⟩
    rw [artistKeys_eq_map, List.mem_map] at hk
    obtain ⟨q, hq, e⟩ := hk
    exact ⟨a, ha, by rw [← Sprintln_injective e]; exact hq⟩
  · rintro ⟨a, ha, hp⟩
    exact ⟨a, ha, by rw [artistKeys_eq_map]; exact List.mem_map_of_mem _ hp⟩

theorem namesAll_of_mem {ok : Char → Bool} {e : Entry} {es : List Entry}
    (h : namesAllIn ok es = true) (he : e ∈ es) : e.namesAll ok = true := by
  induction es with
  | nil => simp at he
  | cons x rest ih =>
    rw [namesAllIn, Bool.and_eq_true] at h
    rcases List.mem_cons.1 he with he | he
    · subst he; exact h.1
    · exact ih h.2 he

theorem namesAll_entry {ok : Char → Bool} {e : Entry} (h : e.namesAll ok = true) :
    (∀ c ∈ e.name, ok c = true) ∧ namesAllIn ok e.children = true := by
  cases e with
  | file n =>
    rw [Entry.namesAll, List.all_eq_true] at h
    exact ⟨h, rfl⟩
  | dir n sub =>
    rw [Entry.namesAll, Bool.and_eq_true, List.all_eq_true] at h
    exact h
  | errDir n sub =>
    rw [Entry.namesAll, Bool.and_eq_true, List.all_eq_true] at h
    exact h

theorem FileAt_names (ok : Char → Bool) {es : List Entry} {dirs : List GoString}
    {name : GoString} (h : FileAt es dirs name) :
    namesAllIn ok es = true → (∀ d ∈ dirs, ∀ c ∈ d, ok c = true) ∧ ∀ c ∈ name, ok c = true := by
  induction h with
  | direct hmem =>
    intro hn
    exact ⟨by simp, (namesAll_entry (namesAll_of_mem hn hmem)).1⟩
  | through hmem _ _ ih =>
    intro hn
    obtain ⟨h1, h2⟩ := namesAll_entry (namesAll_of_mem hn hmem)
    obtain ⟨i1, i2⟩ := ih h2
    refine ⟨?_, i2⟩
    intro d hd
    rcases List.mem_cons.1 hd with hd | hd
    · subst hd; exact h1
    · exact i1 d hd

theorem filePath_chars (ok : Char → Bool) (hslash : ok '/' = true) (dirs : List GoString)
    (name : GoString) (hd : ∀ d ∈ dirs, ∀ c ∈ d, ok c = true) (hn : ∀ c ∈ name, ok c = true) :
    ∀ q, ∃ w, filePath q dirs name = q ++ '/' :: w ∧ ∀ c ∈ w, ok c = true := by
  induction dirs with
  | nil => intro q; exact ⟨name, rfl, hn⟩
  | cons d ds ih =>
    intro q
    obtain ⟨w, hw, hc⟩ := ih (fun x hx => hd x (List.mem_cons_of_mem _ hx)) (pathJoin q d)
    refine ⟨d ++ '/' :: w, ?_, ?_⟩
    · rw [filePath_cons, hw]; simp [pathJoin]
    · intro c hcm
      rcases List.mem_append.1 hcm with h | h
      · exact hd d (List.mem_cons_self _ _) c h
      · rcases List.mem_cons.1 h with h | h
        · rw [h]; exact hslash
        · exact hc c h

/-- Every song path of a scanned artist is the root path, a separator, and then
characters of names of the library and separators only. -/
theorem scanned_path_chars (ok : Char → Bool) (hslash : ok '/' = true) (path : GoString)
    (root : Option (List Entry)) (hroot : rootNamesAll ok root = true) (a : Artist)
    (ha : a ∈ getArtists path root) (s : Song) (hs : s ∈ a.Songs) :
    ∃ w, s.RelativePath = path ++ '/' :: w ∧ ∀ c ∈ w, ok c = true := by
  cases root with
  | none => simp [getArtists] at ha
  | some es =>
    simp only [getArtists] at ha
    simp only [rootNamesAll] at hroot
    obtain ⟨e, he, -, hae⟩ := mem_getArtistsLoop path es a ha
    subst hae
    obtain ⟨hname, hsub⟩ := namesAll_entry (namesAll_of_mem hroot he)
    cases e with
    | file n => simp [Entry.listing, getSongs] at hs
    | errDir n sub => simp [Entry.listing, getSongs] at hs
    | dir n sub =>
      simp only [Entry.listing, getSongs, Entry.name] at hs hname
      simp only [Entry.children] at hsub
      obtain ⟨dirs, name, hf, e⟩ := FileAt_of_mem_getSongsLoop sub _ s hs
      obtain ⟨hd, hn⟩ := FileAt_names ok hf hsub
      obtain ⟨w, hw, hc⟩ := filePath_chars ok hslash dirs name hd hn (pathJoin path n)
      refine ⟨n ++ '/' :: w, ?_, ?_⟩
      · rw [e]; show filePath (pathJoin path n) dirs name = _
        rw [hw]; simp [pathJoin]
      · intro c hcm
        rcases List.mem_append.1 hcm with h | h
        · exact hname c h
        · rcases List.mem_cons.1 h with h | h
          · rw [h]; exact hslash
          · exact hc c h

theorem artistMatches_indexed {Index : Type} (service : GoString → Int → Option (List Item))
    (B : Bleve Index) (hB : B.hitsIndexed) (path : GoString) (maxResults : Int) (a : Artist)
    (p : GoString) (hp : p ∈ artistMatches service B path maxResults a) :
    ∃ s ∈ a.Songs, p = TrimPrefix s.RelativePath path := by
  unfold artistMatches at hp
  cases hs : service a.Name maxResults with
  | none => simp [hs] at hp
  | some items =>
    cases hb : B.newMemOnly with
    | none => simp [hs, hb] at hp
    | some ix0 =>
      simp only [hs, hb, List.mem_filterMap] at hp
      obtain ⟨kv, -, hk⟩ := hp
      unfold titleMatch at hk
      cases hq : B.search (buildIndex B ix0 a.Songs) kv.2 1 with
      | none => simp [hq] at hk
      | some hits =>
        cases hits with
        | nil => simp [hq] at hk
        | cons hit rest =>
          simp only [hq, Option.some.injEq] at hk
          have hmem := hB ix0 a.Songs kv.2 (hit :: rest) hb hq hit (List.mem_cons_self _ _)
          obtain ⟨s, hs1, hs2⟩ := List.mem_map.1 hmem
          exact ⟨s, hs1, by rw [hs2, hk]⟩

/-- With an index that returns indexed ids only, every matched path of a scanned
library is a separator followed by characters of names and separators. -/
theorem allMatches_chars {Index : Type} (ok : Char → Bool) (hslash : ok '/' = true)
    (service : GoString → Int → Option (List Item)) (B : Bleve Index) (hB : B.hitsIndexed)
    (path : GoString) (maxResults skip : Int) (root : Option (List Entry))
    (hroot : rootNamesAll ok root = true) (p : GoString)
    (hp : p ∈ allMatches service B path maxResults skip (getArtists path root)) :
    ∃ w, p = '/' :: w ∧ ∀ c ∈ w, ok c = true := by
  unfold allMatches at hp
  rw [List.mem_flatMap] at hp
  obtain ⟨a, ha, hpa⟩ := hp
  obtain ⟨s, hs, e⟩ := artistMatches_indexed service B hB path maxResults a p hpa
  obtain ⟨w, hw, hc⟩ := scanned_path_chars ok hslash path root hroot a (List.mem_of_mem_drop ha) s hs
  exact ⟨w, by rw [e, hw, TrimPrefix_append], hc⟩

theorem buildIndex_termIndex_ids (songs : List Song) :
    ∀ (ix : List (GoString × GoString)) (d : GoString × GoString),
      d ∈ buildIndex termIndex ix songs → d ∈ ix ∨ d.1 ∈ songs.map Song.RelativePath := by
  induction songs with
  | nil => intro ix d h; exact Or.inl h
  | cons s rest ih =>
    intro ix d h
    have h2 : d ∈ buildIndex termIndex (termIndex.index ix s.RelativePath s.Title) rest := h
    rcases ih _ d h2 with h3 | h3
    · have h4 : d ∈ ix.filter (fun d => decide (d.1 ≠ s.RelativePath)) ++
          [(s.RelativePath, s.Title)] := h3
      rcases List.mem_append.1 h4 with h5 | h5
      · exact Or.inl (List.mem_of_mem_filter h5)
      · right
        rw [List.mem_singleton] at h5
        rw [h5]
        exact List.mem_cons_self _ _
    · exact Or.inr (List.mem_cons_of_mem _ h3)

theorem termIndex_hitsIndexed : termIndex.hitsIndexed := by
  intro ix0 songs title hits h0 hs h hh
  have e0 : ix0 = [] := (Option.some.inj h0).symm
  subst e0
  have e1 : hits = ((buildIndex termIndex [] songs).filter (fun d =>
      (terms title).any (fun t => (terms d.2).any
        (fun u => decide (editDistance t u ≤ 1))))).map Prod.fst := (Option.some.inj hs).symm
  rw [e1, List.mem_map] at hh
  obtain ⟨d, hd, e⟩ := hh
  rcases buildIndex_termIndex_ids songs [] d (List.mem_of_mem_filter hd) with h1 | h1
  · simp at h1
  · rw [← e]; exact h1

end Playlist

namespace Playlist

/-! ## Claims about the written file -/

theorem main_records {Index : Type} (path devKey : GoString) (maxResults : Int)
    (m3uFileName : GoString) (skip : Int) (env : Env Index)
    (service : GoString → Int → Option (List Item))
    (hdev : devKey ≠ []) (hpath : path ≠ []) (hsvc : env.service = some service)
    (hcreate : env.canCreate = true) :
    ∃ (out : Output) (recs : List GoString), main path devKey maxResults m3uFileName skip env = .ok out ∧
      out.file = Sprintln header ++ (recs.map Sprintln).flatten ∧
      recs.Nodup ∧
      (∀ p, p ∈ recs ↔
        p ∈ allMatches service env.bleve path maxResults skip (getArtists path env.root)) ∧
      (recs.map Sprintln).Sorted strLe := by
  obtain ⟨h1, h2, h3, h4⟩ := writePlaylist_records env.order
    (finalState service env.bleve env.order path maxResults skip
      (getArtists path env.root)).playlist
    (nodup_finalState ..)
    (finalState_form service env.bleve env.order path maxResults skip _)
  refine ⟨_, _, main_ok path devKey maxResults m3uFileName skip env service hdev hpath hsvc
    hcreate, h1, h2, ?_, h4⟩
  intro p
  rw [h3, mem_playlist_iff_match]

/-- C4 (amended): main writes the header line followed by one newline-terminated
record per matched path (the id of a candidate's top hit with the root prefix
trimmed), each matched path exactly once however many candidates or artists
matched it; when no file or directory name of the library contains a line break
(the index returning indexed ids only), the lines of the file are the header
followed by these paths and no line occurs twice. -/
theorem playlist_records_distinct {Index : Type} (path devKey : GoString) (maxResults : Int)
    (m3uFileName : GoString) (skip : Int) (env : Env Index)
    (service : GoString → Int → Option (List Item))
    (hdev : devKey ≠ []) (hpath : path ≠ []) (hsvc : env.service = some service)
    (hcreate : env.canCreate = true) :
    ∃ (out : Output) (recs : List GoString), main path devKey maxResults m3uFileName skip env = .ok out ∧
      out.file = Sprintln header ++ (recs.map Sprintln).flatten ∧
      recs.Nodup ∧
      (∀ p, p ∈ recs ↔
        p ∈ allMatches service env.bleve path maxResults skip (getArtists path env.root)) ∧
      (env.bleve.hitsIndexed → rootNamesAll notLineBreak env.root = true →
        lines out.file = header :: recs ∧ (lines out.file).Nodup) := by
  obtain ⟨out, recs, h1, h2, h3, h4, -⟩ :=
    main_records path devKey maxResults m3uFileName skip env service hdev hpath hsvc hcreate
  refine ⟨out, recs, h1, h2, h3, h4, ?_⟩
  intro hB hroot
  have hshape : ∀ p ∈ recs, ∃ w, p = '/' :: w ∧ ∀ c ∈ w, notLineBreak c = true :=
    fun p hp => allMatches_chars notLineBreak (by decide) service env.bleve hB path maxResults
      skip env.root hroot p ((h4 p).1 hp)
  have hclean : ∀ p ∈ recs, '\n' ∉ p := by
    intro p hp hmem
    obtain ⟨w, e, hc⟩ := hshape p hp
    rw [e] at hmem
    rcases List.mem_cons.1 hmem with h | h
    · exact absurd h (by decide)
    · exact absurd (hc _ h) (by decide)
  have hl : lines out.file = header :: recs := by
    rw [h2]; exact lines_records recs hclean
  refine ⟨hl, ?_⟩
  rw [hl, List.nodup_cons]
  refine ⟨?_, h3⟩
  intro hmem
  obtain ⟨w, e, -⟩ := hshape header hmem
  have hh : header = '#' :: "EXTM3U".toList := rfl
  rw [hh] at e
  exact absurd (List.cons.inj e).1 (by decide)

/-- C4, witness: artist `Foo` with the files `song` and `zed` and the videos `zed`,
`zee`, `song`; the path `/Foo/zed` is matched by two candidates and written once. -/
theorem playlist_records_distinct_witness :
    allMatches zedService termIndex "path".toList 10 0
        (getArtists "path".toList (some zedRoot)) =
      ["/Foo/zed".toList, "/Foo/zed".toList, "/Foo/song".toList] ∧
    (main "path".toList "key".toList 10 "top10".toList 0 zedEnv).toOption.map
        (fun out => out.file) = some "#EXTM3U\n/Foo/song\n/Foo/zed\n".toList ∧
    ∃ out, main "path".toList "key".toList 10 "top10".toList 0 zedEnv = .ok out ∧
      (lines out.file).Nodup :=
  ⟨by decide, by decide,
    match playlist_records_distinct "path".toList "key".toList 10 "top10".toList 0 zedEnv
      zedService (by decide) (by decide) rfl rfl with
    | ⟨out, _, h1, _, _, _, h5⟩ => ⟨out, h1, (h5 termIndex_hitsIndexed (by decide)).2⟩⟩

/-- C4, counterexample: with an artist directory named `A` plus a line break that
holds `Foo/x`, and an artist directory `Foo` that holds `x`, both matched, the
line `/Foo/x` occurs twice in the written file. -/
theorem lines_repeat_when_name_has_line_break :
    ∃ out, main "path".toList "key".toList 10 "top10".toList 0 breakEnv = .ok out ∧
      out.file = "#EXTM3U\n/A\n/Foo/x\n/Foo/x\n".toList ∧
      lines out.file = ["#EXTM3U".toList, "/A".toList, "/Foo/x".toList, "/Foo/x".toList] ∧
      ¬ (lines out.file).Nodup :=
  ⟨_, rfl, by decide, by decide, by decide⟩

end Playlist

namespace Playlist

/-- C5 (amended): main writes, after the header line, the newline-terminated
records of the matched paths in ascending byte-wise order; when every character
of every file and directory name of the library is ordered above the line break
(the index returning indexed ids only), the lines after the header are the
matched paths themselves, in ascending order. -/
theorem playlist_records_ascending {Index : Type} (path devKey : GoString) (maxResults : Int)
    (m3uFileName : GoString) (skip : Int) (env : Env Index)
    (service : GoString → Int → Option (List Item))
    (hdev : devKey ≠ []) (hpath : path ≠ []) (hsvc : env.service = some service)
    (hcreate : env.canCreate = true) :
    ∃ (out : Output) (recs : List GoString),
      main path devKey maxResults m3uFileName skip env = .ok out ∧
      out.file = Sprintln header ++ (recs.map Sprintln).flatten ∧
      (∀ p, p ∈ recs ↔
        p ∈ allMatches service env.bleve path maxResults skip (getArtists path env.root)) ∧
      (recs.map Sprintln).Sorted strLe ∧
      (env.bleve.hitsIndexed → rootNamesAll aboveLineBreak env.root = true →
        (lines out.file).tail = recs ∧ (lines out.file).tail.Sorted strLe) := by
  obtain ⟨out, recs, h1, h2, -, h4, h5⟩ :=
    main_records path devKey maxResults m3uFileName skip env service hdev hpath hsvc hcreate
  refine ⟨out, recs, h1, h2, h4, h5, ?_⟩
  intro hB hroot
  have habove : ∀ p ∈ recs, ∀ c ∈ p, '\n' < c := by
    intro p hp c hc
    obtain ⟨w, e, hw⟩ := allMatches_chars aboveLineBreak (by decide) service env.bleve hB path
      maxResults skip env.root hroot p ((h4 p).1 hp)
    rw [e] at hc
    rcases List.mem_cons.1 hc with h | h
    · rw [h]; decide
    · exact of_decide_eq_true (hw c h)
  have hclean : ∀ p ∈ recs, '\n' ∉ p := fun p hp hmem => lt_irrefl _ (habove p hp _ hmem)
  have hl : (lines out.file).tail = recs := by
    rw [h2, lines_records recs hclean]; rfl
  refine ⟨hl, ?_⟩
  rw [hl]
  exact sorted_of_sorted_map_Sprintln recs habove h5

/-- C5, witness: artist `Foo` with the files `song` and `zed` and the videos `zed`,
`zee`, `song`; the two matched paths are written in ascending order. -/
theorem playlist_records_ascending_witness :
    (main "path".toList "key".toList 10 "top10".toList 0 zedEnv).toOption.map
        (fun out => (lines out.file).tail) = some ["/Foo/song".toList, "/Foo/zed".toList] ∧
    ∃ out, main "path".toList "key".toList 10 "top10".toList 0 zedEnv = .ok out ∧
      (lines out.file).tail.Sorted strLe :=
  ⟨by decide,
    match playlist_records_ascending "path".toList "key".toList 10 "top10".toList 0 zedEnv
      zedService (by decide) (by decide) rfl rfl with
    | ⟨out, _, h1, _, _, _, h5⟩ => ⟨out, h1, (h5 termIndex_hitsIndexed (by decide)).2⟩⟩

/-- C5, counterexample: artist `Art` holds the file `zed` and the directory
`zed<TAB>qux` with the file `song`; both files are matched (videos `zed` and
`song`), and the line `/Art/zed<TAB>qux/song` is written before the line
`/Art/zed`, although `/Art/zed` is the smaller path. -/
theorem lines_descend_below_line_break :
    ∃ out, main "path".toList "key".toList 10 "top10".toList 0 tabEnv = .ok out ∧
      out.file = "#EXTM3U\n/Art/zed\tqux/song\n/Art/zed\n".toList ∧
      (lines out.file).tail = ["/Art/zed\tqux/song".toList, "/Art/zed".toList] ∧
      strLess "/Art/zed".toList "/Art/zed\tqux/song".toList = true ∧
      ¬ (lines out.file).tail.Sorted strLe :=
  ⟨_, rfl, by decide, by decide, by decide, by decide⟩

/-- C7, witness: the library `Baz/x`, `Foo/song`, `Foo/zed` where the request for
`Baz` fails; the run completes and writes the file of the list holding `Foo` alone. -/
theorem failed_search_drops_only_that_artist_witness :
    ∃ out, main "path".toList "key".toList 10 "top10".toList 0 bazZedEnv = .ok out ∧
      out.file = playlistFile zedService termIndex inOrder "path".toList 10 0
        ([] ++ [⟨"Foo".toList, [⟨"path/Foo/song".toList, "song".toList⟩,
          ⟨"path/Foo/zed".toList, "zed".toList⟩]⟩]) :=
  (failed_search_drops_only_that_artist "path".toList "key".toList 10 "top10".toList 0
    bazZedEnv zedService []
    [⟨"Foo".toList, [⟨"path/Foo/song".toList, "song".toList⟩,
      ⟨"path/Foo/zed".toList, "zed".toList⟩]⟩]
    ⟨"Baz".toList, [⟨"path/Baz/x".toList, "x".toList⟩]⟩
    (by decide) (by decide) rfl rfl (by decide) (by decide) (by decide)).1

/-! ## What one artist adds -/

theorem collectVideos_key (items : List Item) (it : Item) (hit : it ∈ items)
    (hk : it.Kind = videoKind) : ∃ t, (it.VideoId, t) ∈ collectVideos items := by
  induction items using List.reverseRecOn with
  | nil => simp at hit
  | append_singleton l last ih =>
    rw [collectVideos_concat]
    by_cases hv : last.Kind = videoKind
    · simp only [hv, if_true]
      obtain ⟨-, m2⟩ := mapSet_spec (collectVideos l) last.VideoId last.Title
        (collectVideos_spec l).1
      by_cases hid : it.VideoId = last.VideoId
      · exact ⟨last.Title, (m2 _).2 (Or.inl (by rw [hid]))⟩
      · rcases List.mem_append.1 hit with h | h
        · obtain ⟨t, ht⟩ := ih h
          exact ⟨t, (m2 _).2 (Or.inr ⟨ht, hid⟩)⟩
        · rw [List.mem_singleton] at h
          exact absurd (by rw [h]) hid
    · simp only [hv, if_false]
      rcases List.mem_append.1 hit with h | h
      · exact ih h
      · rw [List.mem_singleton] at h
        rw [h] at hk
        exact absurd hk hv

/-- C8 (amended): a non-skipped artist whose search request and index creation
succeed, for a response in which no video id carries two titles, adds to the
playlist exactly these keys: for each response item of video kind whose title's
query over the artist's song index returns at least one hit, the key of the top
hit with the root prefix trimmed and a line break appended.  Items of another
kind, failed queries and queries without hits add nothing. -/
theorem artist_adds_top_hits {Index : Type} (service : GoString → Int → Option (List Item))
    (B : Bleve Index) (order : RangeOrder) (path : GoString) (maxResults skip : Int)
    (i : Nat) (st : RunState) (a : Artist) (items : List Item) (ix0 : Index) (x : GoString)
    (hskip : ¬ ((i : Int) < skip))
    (hresp : service a.Name maxResults = some items)
    (hix : B.newMemOnly = some ix0)
    (hids : ∀ u ∈ items, ∀ v ∈ items, u.Kind = videoKind → v.Kind = videoKind →
      u.VideoId = v.VideoId → u.Title = v.Title) :
    x ∈ (artistStep service B order path maxResults skip i st a).playlist ↔
      x ∈ st.playlist ∨
        ∃ it ∈ items, it.Kind = videoKind ∧
          ∃ hit rest, B.search (buildIndex B ix0 a.Songs) it.Title 1 = some (hit :: rest) ∧
            x = Sprintln (TrimPrefix hit path) := by
  rw [mem_artistStep, mem_artistKeys service B path maxResults a items ix0 hresp hix]
  simp only [hskip, not_false_eq_true, true_and]
  constructor
  · rintro (h | ⟨pre, it, post, hit, rest, he, hk, -, hs, hx⟩)
    · exact Or.inl h
    · exact Or.inr ⟨it, by rw [he]; simp, hk, hit, rest, hs, hx⟩
  · rintro (h | ⟨it, hmem, hk, hit, rest, hs, hx⟩)
    · exact Or.inl h
    · right
      obtain ⟨t, ht⟩ := collectVideos_key items it hmem hk
      obtain ⟨pre, it2, post, he, hk2, hid2, -, hpost⟩ :=
        ((collectVideos_spec items).2 _ _).1 ht
      have hmem2 : it2 ∈ items := by rw [he]; simp
      have htitle : it2.Title = it.Title := hids it2 hmem2 it hmem hk2 hk hid2
      refine ⟨pre, it2, post, hit, rest, he, hk2, ?_, by rw [htitle]; exact hs, hx⟩
      intro j hj hjk
      rw [hid2]
      exact hpost j hj hjk

/-- C8, witness: artist `Foo` with the songs `path/Foo/song` and `path/Foo/zed` and
the videos `zed`, `zee`, `song`; the video `zee`, one edit away from `zed`, adds
the key `/Foo/zed` plus line break. -/
theorem artist_adds_top_hits_witness :
    "/Foo/zed\n".toList ∈ (artistStep zedService termIndex inOrder "path".toList 10 0 0
      ⟨[], []⟩ ⟨"Foo".toList, [⟨"path/Foo/song".toList, "song".toList⟩,
        ⟨"path/Foo/zed".toList, "zed".toList⟩]⟩).playlist :=
  (artist_adds_top_hits zedService termIndex inOrder "path".toList 10 0 0 ⟨[], []⟩
    ⟨"Foo".toList, [⟨"path/Foo/song".toList, "song".toList⟩,
      ⟨"path/Foo/zed".toList, "zed".toList⟩]⟩
    [⟨videoKind, "v1".toList, "zed".toList⟩, ⟨videoKind, "v2".toList, "zee".toList⟩,
      ⟨videoKind, "v3".toList, "song".toList⟩] [] "/Foo/zed\n".toList
    (by decide) (by decide) rfl (by decide)).2
    (Or.inr ⟨⟨videoKind, "v2".toList, "zee".toList⟩, by decide, by decide,
      "path/Foo/zed".toList, [], by decide, by decide⟩)

/-- C8, counterexample: artist `Foo` with the songs `path/Foo/song` and
`path/Foo/zed` and the videos `zed`, `zee`, `song`.  The query for `zed` has the
top hit `path/Foo/zed`, but the turn adds the keys `/Foo/zed` and `/Foo/song`,
each with a line break: the hit's key itself is not added. -/
theorem added_key_is_not_the_hit_key :
    termIndex.search
        (buildIndex termIndex [] [⟨"path/Foo/song".toList, "song".toList⟩,
          ⟨"path/Foo/zed".toList, "zed".toList⟩])
        "zed".toList 1 = some ["path/Foo/zed".toList] ∧
      (artistStep zedService termIndex inOrder "path".toList 10 0 0 ⟨[], []⟩
        ⟨"Foo".toList, [⟨"path/Foo/song".toList, "song".toList⟩,
          ⟨"path/Foo/zed".toList, "zed".toList⟩]⟩).playlist =
        ["/Foo/zed\n".toList, "/Foo/song\n".toList] ∧
      ¬ (∀ x, x ∈ (artistStep zedService termIndex inOrder "path".toList 10 0 0 ⟨[], []⟩
          ⟨"Foo".toList, [⟨"path/Foo/song".toList, "song".toList⟩,
            ⟨"path/Foo/zed".toList, "zed".toList⟩]⟩).playlist ↔
        ∃ it hit rest,
          it ∈ [(⟨videoKind, "v1".toList, "zed".toList⟩ : Item),
            ⟨videoKind, "v2".toList, "zee".toList⟩, ⟨videoKind, "v3".toList, "song".toList⟩] ∧
          it.Kind = videoKind ∧
          termIndex.search
            (buildIndex termIndex [] [⟨"path/Foo/song".toList, "song".toList⟩,
              ⟨"path/Foo/zed".toList, "zed".toList⟩])
            it.Title 1 = some (hit :: rest) ∧
          x = hit) := by
  refine ⟨by decide, by decide, ?_⟩
  intro h
  have hm := (h "path/Foo/zed".toList).2
    ⟨⟨videoKind, "v1".toList, "zed".toList⟩, "path/Foo/zed".toList, [],
      by decide, by decide, by decide, rfl⟩
  have he : (artistStep zedService termIndex inOrder "path".toList 10 0 0 ⟨[], []⟩
      ⟨"Foo".toList, [⟨"path/Foo/song".toList, "song".toList⟩,
        ⟨"path/Foo/zed".toList, "zed".toList⟩]⟩).playlist =
      ["/Foo/zed\n".toList, "/Foo/song\n".toList] := by decide
  rw [he] at hm
  exact absurd hm (by decide)

end Playlist
